import Mathlib

/-!
Verification of the Huffman codec in src/interface.py and the on/off
controller in src/tclab_onoff_7days.py.

Modelling conventions for the shallow embedding:
* a byte is a natural number (the Python code keys dicts by the byte value
  0-255; no arithmetic depends on the bound, which appears as a hypothesis
  where a claim mentions it);
* the textual bit strings of the Python code (characters "0"/"1") are
  lists of booleans, with false standing for "0" and true for "1";
* Python dicts are association lists kept in insertion order; access
  raises KeyError on a missing key, modelled by an Option-valued lookup;
* collections.Counter(data).items() enumerates symbols in first-seen
  order with their multiplicities;
* the heapq min-heap is modelled as a plain list with an extract-min
  operation: heappop returns an element of smallest key (HuffmanNode.__lt__
  compares freq only, so the key is the frequency; the order among equal
  frequencies is implementation-defined in the source and is fixed here as
  first-in-list), and heappush adds the merged node to the pool;
* time measurement (time.perf_counter) is dropped: the timing components
  of the Python return tuples carry no information about the data path.
-/

/-! ### Bit strings -/

/-- Boolean test that the first bit string is an initial segment of the
second (used to state the code-table invariant). -/
def isPre : List Bool → List Bool → Bool
  | [], _ => true
  | _ :: _, [] => false
  | x :: xs, y :: ys => (x == y) && isPre xs ys

/-- Propositional form of isPre. -/
def IsPre (a b : List Bool) : Prop := isPre a b = true

instance (a b : List Bool) : Decidable (IsPre a b) := by
  unfold IsPre; infer_instance

/-! ### Frequency counting: collections.Counter over the input bytes -/

/-- The distinct symbols of a byte list, in first-seen order: the key order
of collections.Counter(data_bytes). -/
def seenKeys : List ℕ → List ℕ
  | [] => []
  | b :: rest => b :: (seenKeys rest).filter (fun x => x ≠ b)

/-- freq = Counter(data_bytes): association list of (symbol, multiplicity)
in first-seen key order. -/
def freqItems (data : List ℕ) : List (ℕ × ℕ) :=
  (seenKeys data).map (fun b => (b, data.count b))

/-! ### HuffmanNode and tree construction (build_huffman_tree_from_bytes) -/

/-- class HuffmanNode: byte_val is None exactly on internal nodes, and the
source only ever creates leaves (byte_val set, no children) and merged
nodes (byte_val None, two children), so the type is a strict binary tree.
The freq field is stored as in the source. -/
inductive HuffmanNode : Type where
  | leaf (byteVal freq : ℕ)
  | internal (freq : ℕ) (left right : HuffmanNode)
deriving DecidableEq

/-- The stored freq field of a node. -/
def HuffmanNode.freq : HuffmanNode → ℕ
  | .leaf _ f => f
  | .internal f _ _ => f

/-- Extract-min from the heap pool: returns a minimal-weight element
(first such, for equal weights) and the remaining pool in order. -/
def popMin1 {α : Type} (wt : α → ℕ) : α → List α → α × List α
  | n, [] => (n, [])
  | n, m :: rest =>
    if wt n ≤ wt m then
      let p := popMin1 wt n rest
      (p.1, m :: p.2)
    else
      let p := popMin1 wt m rest
      (p.1, n :: p.2)

/-- The merge loop of build_huffman_tree_from_bytes: while the heap holds
more than one node, pop the two lightest, merge them into an internal node
carrying the summed frequency, push the result.  The fuel argument is the
iteration bound; one list element is removed per round, so fuel equal to
the initial pool size always suffices. -/
def mergeGo : ℕ → List HuffmanNode → Option HuffmanNode
  | _, [] => none
  | _, [n] => some n
  | 0, _ :: _ :: _ => none
  | fuel + 1, a :: b :: rest =>
    let p1 := popMin1 HuffmanNode.freq a (b :: rest)
    match p1.2 with
    | [] => none
    | c :: l2 =>
      let p2 := popMin1 HuffmanNode.freq c l2
      mergeGo fuel (p2.2 ++ [HuffmanNode.internal (p1.1.freq + p2.1.freq) p1.1 p2.1])

/-- build_huffman_tree_from_bytes: one leaf per Counter item, then the
merge loop; None on an empty input. -/
def build_huffman_tree_from_bytes (data : List ℕ) : Option HuffmanNode :=
  let heap := (freqItems data).map (fun p => HuffmanNode.leaf p.1 p.2)
  mergeGo heap.length heap

/-! ### Code table (build_codes_from_tree) -/

/-- The walk closure of build_codes_from_tree: depth-first traversal
accumulating the path, 0 (false) for left and 1 (true) for right; a leaf
records the accumulated path, or the single bit "0" when the path is empty
(prefix or "0" in the source: the root-is-leaf case). -/
def walkCodes : HuffmanNode → List Bool → List (ℕ × List Bool)
  | .leaf b _, acc => [(b, if acc = [] then [false] else acc)]
  | .internal _ l r, acc => walkCodes l (acc ++ [false]) ++ walkCodes r (acc ++ [true])

/-- build_codes_from_tree: the insertion-ordered dict of symbol → code. -/
def build_codes_from_tree (root : HuffmanNode) : List (ℕ × List Bool) :=
  walkCodes root []

/-! ### Dict lookups -/

/-- Dict access d[k]: the entry for the key, None modelling KeyError.
The tables built by the source have distinct keys, so first-match
semantics agrees with dict semantics. -/
def assq {α β : Type} [DecidableEq α] : List (α × β) → α → Option β
  | [], _ => none
  | p :: rest, a => if p.1 = a then some p.2 else assq rest a

/-! ### Encoding (huffman_compress_bytes) -/

/-- The generator expression "".join(codes[b] for b in data_bytes):
concatenates each input symbol's code; a missing dict entry is a KeyError,
modelled as none. -/
def encodeWithTable : List ℕ → List (ℕ × List Bool) → Option (List Bool)
  | [], _ => some []
  | b :: rest, tab =>
    match assq tab b, encodeWithTable rest tab with
    | some c, some bits => some (c ++ bits)
    | _, _ => none

/-- huffman_compress_bytes: build the tree from the input's own
frequencies, derive the code table, concatenate the per-symbol codes.
Empty input returns the empty stream and empty table.  The timing value of
the source's result tuple is dropped. -/
def huffman_compress_bytes (data : List ℕ) : Option (List Bool × List (ℕ × List Bool)) :=
  match build_huffman_tree_from_bytes data with
  | none => some ([], [])
  | some root =>
    let codes := build_codes_from_tree root
    match encodeWithTable data codes with
    | some bits => some (bits, codes)
    | none => none

/-! ### Decoding (huffman_decompress_bits) -/

/-- reverse_map = {v: k for k, v in codes.items()}: code → symbol.  The
dict comprehension lets a later entry overwrite an earlier one with the
same code, i.e. lookup finds the last matching entry, hence the reversal. -/
def reverseMap (codes : List (ℕ × List Bool)) : List (List Bool × ℕ) :=
  (codes.map (fun p => (p.2, p.1))).reverse

/-- The decode loop: append each bit to the buffer cur; when the buffer is
a key of reverse_map, emit the symbol and reset the buffer.  Whatever is
left in cur when the bits run out is dropped. -/
def decodeLoop (rmap : List (List Bool × ℕ)) : List Bool → List Bool → List ℕ
  | _, [] => []
  | cur, bit :: rest =>
    match assq rmap (cur ++ [bit]) with
    | some k => k :: decodeLoop rmap [] rest
    | none => decodeLoop rmap (cur ++ [bit]) rest

/-- huffman_decompress_bits: greedy prefix-matching decode of the bit
stream against the reverse map of the code table.  The timing value of the
source's result tuple is dropped. -/
def huffman_decompress_bits (bits : List Bool) (codes : List (ℕ × List Bool)) : List ℕ :=
  decodeLoop (reverseMap codes) [] bits

/-! ### Cost functions and auxiliary structures for the optimality claim -/

/-- Weighted bit cost of the code table built by the algorithm for data:
sum of multiplicity times assigned code length over the distinct symbols. -/
def tableCodeCost (data : List ℕ) (tab : List (ℕ × List Bool)) : ℕ :=
  ((freqItems data).map (fun p => p.2 * ((assq tab p.1).getD []).length)).sum

/-- Weighted bit cost of an arbitrary code assignment cf for data. -/
def codeCost (data : List ℕ) (cf : ℕ → List Bool) : ℕ :=
  ((freqItems data).map (fun p => p.2 * (cf p.1).length)).sum

/-- Sum of the stored frequencies over the internal nodes of a tree: the
weighted external path length of the tree when frequencies are consistent. -/
def treeCost : HuffmanNode → ℕ
  | .leaf _ _ => 0
  | .internal f l r => f + treeCost l + treeCost r

/-- Multiset of (symbol, frequency) pairs at the leaves. -/
def leavesWF : HuffmanNode → Multiset (ℕ × ℕ)
  | .leaf b f => {(b, f)}
  | .internal _ l r => leavesWF l + leavesWF r

/-- The walk of build_codes_from_tree, additionally carrying each leaf's
stored frequency (proof artifact pairing codes with weights). -/
def walkPairs : HuffmanNode → List Bool → List ((ℕ × ℕ) × List Bool)
  | .leaf b f, acc => [((b, f), if acc = [] then [false] else acc)]
  | .internal _ l r, acc => walkPairs l (acc ++ [false]) ++ walkPairs r (acc ++ [true])

/-- The Huffman merge recurrence on bare weights: repeatedly replace the
two smallest weights by their sum, accumulating the sums.  Mirrors mergeGo
on the multiset of pool weights. -/
def hcGo : ℕ → List ℕ → ℕ
  | _, [] => 0
  | _, [_] => 0
  | 0, _ :: _ :: _ => 0
  | fuel + 1, a :: b :: rest =>
    let p1 := popMin1 id a (b :: rest)
    match p1.2 with
    | [] => 0
    | c :: l2 =>
      let p2 := popMin1 id c l2
      (p1.1 + p2.1) + hcGo fuel (p2.2 ++ [p1.1 + p2.1])

/-- Huffman cost of a weight list. -/
def hc (l : List ℕ) : ℕ := hcGo l.length l

/-- Cost of a multiset of (weight, depth) pairs: sum of products. -/
def pairCost (M : Multiset (ℕ × ℕ)) : ℕ := (M.map (fun p => p.1 * p.2)).sum

/-- Scaled Kraft sum of a (weight, depth) multiset at scale exponent B. -/
def kraftSum (B : ℕ) (M : Multiset (ℕ × ℕ)) : ℕ :=
  (M.map (fun p => 2 ^ (B - p.2))).sum

/-- Stored frequencies are consistent: every internal node carries the sum
of its children's frequencies.  Holds for every tree the merge loop
builds, since merged nodes are created with the summed frequency. -/
def freqConsistent : HuffmanNode → Prop
  | .leaf _ _ => True
  | .internal f l r => f = l.freq + r.freq ∧ freqConsistent l ∧ freqConsistent r

/-- First-bit test used to split a prefix-free code set by leading bit. -/
def firstIs (x : Bool) : List Bool → Bool
  | [] => false
  | y :: _ => y == x

/-- Huffman cost of a weight multiset. -/
def hcM (W : Multiset ℕ) : ℕ := hc (W.sort (· ≤ ·))

/-- Scaled Kraft sum of a depth multiset. -/
def kraftD (B : ℕ) (s : Multiset ℕ) : ℕ := (s.map (fun d => 2 ^ (B - d))).sum

/-! ### On/off controller (tclab_onoff_7days.py) -/

/-- onoff_control: hysteresis on/off controller.  The Python floats are
modelled as rationals; only order comparisons occur. -/
def onoff_control (temp setpoint deadband last_val : ℚ) : ℚ :=
  if temp < setpoint - deadband then 100
  else if temp > setpoint + deadband then 0
  else last_val

/-! ## Lemmas about extract-min -/

theorem popMin1_perm {α : Type} (wt : α → ℕ) (a : α) (l : List α) :
    List.Perm ((popMin1 wt a l).1 :: (popMin1 wt a l).2) (a :: l) := by
  induction l generalizing a with
  | nil => simp [popMin1]
  | cons m rest ih =>
    simp only [popMin1]
    by_cases h : wt a ≤ wt m
    · rw [if_pos h]
      refine List.Perm.trans (List.Perm.swap _ _ _) ?_
      exact List.Perm.trans ((ih a).cons m) (List.Perm.swap _ _ _)
    · rw [if_neg h]
      exact List.Perm.trans (List.Perm.swap _ _ _) ((ih m).cons a)

theorem popMin1_min {α : Type} (wt : α → ℕ) (a : α) (l : List α) :
    ∀ x ∈ a :: l, wt (popMin1 wt a l).1 ≤ wt x := by
  induction l generalizing a with
  | nil => intro x hx; simp [popMin1] at hx ⊢; simp [hx]
  | cons m rest ih =>
    intro x hx
    simp only [popMin1]
    by_cases h : wt a ≤ wt m
    · rw [if_pos h]
      rcases List.mem_cons.1 hx with he | hx2
      · rw [he]; exact ih a a (List.mem_cons_self _ _)
      · rcases List.mem_cons.1 hx2 with he | hx3
        · rw [he]; exact le_trans (ih a a (List.mem_cons_self _ _)) h
        · exact ih a x (List.mem_cons_of_mem _ hx3)
    · rw [if_neg h]
      have ham : wt m ≤ wt a := le_of_not_le h
      rcases List.mem_cons.1 hx with he | hx2
      · rw [he]; exact le_trans (ih m m (List.mem_cons_self _ _)) ham
      · rcases List.mem_cons.1 hx2 with he | hx3
        · rw [he]; exact ih m m (List.mem_cons_self _ _)
        · exact ih m x (List.mem_cons_of_mem _ hx3)

theorem popMin1_of_le {α : Type} (wt : α → ℕ) (a : α) (l : List α)
    (h : ∀ x ∈ l, wt a ≤ wt x) : popMin1 wt a l = (a, l) := by
  induction l with
  | nil => rfl
  | cons m rest ih =>
    have ham : wt a ≤ wt m := h m (List.mem_cons_self _ _)
    have ih' := ih (fun x hx => h x (List.mem_cons_of_mem _ hx))
    simp [popMin1, ham, ih']

theorem popMin1_length {α : Type} (wt : α → ℕ) (a : α) (l : List α) :
    (popMin1 wt a l).2.length = l.length := by
  induction l generalizing a with
  | nil => rfl
  | cons m rest ih =>
    simp only [popMin1]
    by_cases h : wt a ≤ wt m <;> simp [h, ih]

theorem popMin1_map {α : Type} (wt : α → ℕ) (a : α) (l : List α) :
    wt (popMin1 wt a l).1 = (popMin1 id (wt a) (l.map wt)).1 ∧
      (popMin1 wt a l).2.map wt = (popMin1 id (wt a) (l.map wt)).2 := by
  induction l generalizing a with
  | nil => simp [popMin1]
  | cons m rest ih =>
    simp only [popMin1, List.map_cons]
    by_cases h : wt a ≤ wt m
    · simpa [h, id] using ih a
    · simpa [h, id] using ih m

/-! ## Frequency table lemmas -/

theorem mem_seenKeys (l : List ℕ) (x : ℕ) : x ∈ seenKeys l ↔ x ∈ l := by
  induction l with
  | nil => simp [seenKeys]
  | cons b rest ih =>
    simp only [seenKeys, List.mem_cons, List.mem_filter, decide_eq_true_eq, ih]
    constructor
    · rintro (h | ⟨h1, _⟩)
      · exact Or.inl h
      · exact Or.inr h1
    · rintro (h | h)
      · exact Or.inl h
      · by_cases hxb : x = b
        · exact Or.inl hxb
        · exact Or.inr ⟨h, hxb⟩

theorem nodup_seenKeys (l : List ℕ) : (seenKeys l).Nodup := by
  induction l with
  | nil => simp [seenKeys]
  | cons b rest ih =>
    refine List.Nodup.cons ?_ (List.Nodup.filter _ ih)
    intro hb
    have := (List.mem_filter.1 hb).2
    simp at this

theorem seenKeys_nil_iff (l : List ℕ) : seenKeys l = [] ↔ l = [] := by
  cases l <;> simp [seenKeys]

theorem seenKeys_const (s : ℕ) (l : List ℕ) (hne : l ≠ [])
    (hall : ∀ b ∈ l, b = s) : seenKeys l = [s] := by
  induction l with
  | nil => exact absurd rfl hne
  | cons b rest ih =>
    have hbs : b = s := hall b (List.mem_cons_self _ _)
    subst hbs
    rcases List.eq_nil_or_concat rest with h | _
    · subst h; simp [seenKeys]
    · have hrest : ∀ x ∈ rest, x = b := fun x hx => hall x (List.mem_cons_of_mem _ hx)
      by_cases hres : rest = []
      · subst hres; simp [seenKeys]
      · have := ih hres hrest
        simp only [seenKeys, this]
        simp

/-! ## Association list lemmas -/

theorem assq_eq_none_iff {α β : Type} [DecidableEq α] (l : List (α × β)) (a : α) :
    assq l a = none ↔ ∀ p ∈ l, p.1 ≠ a := by
  induction l with
  | nil => simp [assq]
  | cons p rest ih =>
    simp only [assq]
    by_cases h : p.1 = a
    · simp [h]
    · simp [h, ih]

theorem assq_isSome_iff {α β : Type} [DecidableEq α] (l : List (α × β)) (a : α) :
    (assq l a).isSome ↔ ∃ p ∈ l, p.1 = a := by
  rw [← Option.ne_none_iff_isSome, Ne, assq_eq_none_iff]
  push_neg
  rfl

theorem assq_mem {α β : Type} [DecidableEq α] (l : List (α × β)) (a : α) (b : β)
    (h : assq l a = some b) : (a, b) ∈ l := by
  induction l with
  | nil => simp [assq] at h
  | cons p rest ih =>
    simp only [assq] at h
    by_cases hp : p.1 = a
    · rw [if_pos hp] at h
      injection h with h2
      subst h2
      subst hp
      simp
    · rw [if_neg hp] at h
      exact List.mem_cons_of_mem _ (ih h)

theorem assq_of_mem_nodup {α β : Type} [DecidableEq α] (l : List (α × β)) (a : α) (b : β)
    (hnd : (l.map Prod.fst).Nodup) (hmem : (a, b) ∈ l) : assq l a = some b := by
  induction l with
  | nil => simp at hmem
  | cons p rest ih =>
    simp only [List.map_cons, List.nodup_cons] at hnd
    rcases List.mem_cons.1 hmem with he | hmem2
    · simp [assq, ← he]
    · have hpa : p.1 ≠ a := by
        intro hcon
        exact hnd.1 (hcon ▸ (List.mem_map.2 ⟨(a, b), hmem2, rfl⟩))
      simp only [assq, if_neg hpa]
      exact ih hnd.2 hmem2

/-! ## The merge loop preserves the leaf multiset -/

theorem mergeGo_leavesWF : ∀ (fuel : ℕ) (L : List HuffmanNode) (t : HuffmanNode),
    mergeGo fuel L = some t → leavesWF t = (L.map leavesWF).sum := by
  intro fuel
  induction fuel with
  | zero =>
    intro L t h
    match L with
    | [] => simp [mergeGo] at h
    | [n] =>
      simp only [mergeGo, Option.some.injEq] at h
      subst h; simp
    | a :: b :: rest => simp [mergeGo] at h
  | succ fuel ih =>
    intro L t h
    match L with
    | [] => simp [mergeGo] at h
    | [n] =>
      simp only [mergeGo, Option.some.injEq] at h
      subst h; simp
    | a :: b :: rest =>
      simp only [mergeGo] at h
      rcases hL : (popMin1 HuffmanNode.freq a (b :: rest)).2 with _ | ⟨c, l2⟩
      · rw [hL] at h; simp at h
      · rw [hL] at h
        have hrec := ih _ _ h
        have hperm1 := popMin1_perm HuffmanNode.freq a (b :: rest)
        have hperm2 := popMin1_perm HuffmanNode.freq c l2
        rw [hL] at hperm1
        have e1 : ((a :: b :: rest).map leavesWF).sum
            = (((popMin1 HuffmanNode.freq a (b :: rest)).1 :: c :: l2).map leavesWF).sum :=
          (List.Perm.sum_eq (hperm1.map leavesWF)).symm
        have e2 : ((c :: l2).map leavesWF).sum
            = (((popMin1 HuffmanNode.freq c l2).1
                :: (popMin1 HuffmanNode.freq c l2).2).map leavesWF).sum :=
          (List.Perm.sum_eq (hperm2.map leavesWF)).symm
        rw [hrec]
        simp only [List.map_append, List.map_cons, List.sum_append, List.sum_cons,
          List.map_nil, List.sum_nil, leavesWF] at e1 e2 ⊢
        rw [e1, e2]
        abel

theorem build_tree_leavesWF (data : List ℕ) (root : HuffmanNode)
    (h : build_huffman_tree_from_bytes data = some root) :
    leavesWF root = (freqItems data : Multiset (ℕ × ℕ)) := by
  have := mergeGo_leavesWF _ _ _ h
  rw [this]
  generalize freqItems data = items
  induction items with
  | nil => simp
  | cons p rest ih =>
    simp only [List.map_cons, List.sum_cons, leavesWF, ih]
    simp [Multiset.singleton_add, Multiset.cons_coe]

/-! ## IsPre lemmas -/

theorem isPre_append (a t : List Bool) : IsPre a (a ++ t) := by
  induction a with
  | nil => simp [IsPre, isPre]
  | cons x xs ih => simpa [IsPre, isPre] using ih

theorem isPre_iff (a b : List Bool) : IsPre a b ↔ ∃ t, b = a ++ t := by
  constructor
  · intro h
    induction a generalizing b with
    | nil => exact ⟨b, rfl⟩
    | cons x xs ih =>
      match b with
      | [] => simp [IsPre, isPre] at h
      | y :: ys =>
        simp only [IsPre, isPre, Bool.and_eq_true, beq_iff_eq] at h
        obtain ⟨t, ht⟩ := ih ys h.2
        exact ⟨t, by simp [h.1, ht]⟩
  · rintro ⟨t, rfl⟩
    exact isPre_append a t

theorem isPre_same_append (p u v : List Bool) :
    IsPre (p ++ u) (p ++ v) ↔ IsPre u v := by
  induction p with
  | nil => simp
  | cons x xs ih => simpa [IsPre, isPre] using ih

theorem not_isPre_of_head_ne (p s1 s2 : List Bool) (x y : Bool) (hxy : x ≠ y) :
    ¬ IsPre (p ++ x :: s1) (p ++ y :: s2) := by
  rw [isPre_same_append]
  simp only [IsPre, isPre, Bool.and_eq_true, beq_iff_eq]
  rintro ⟨h, -⟩
  exact hxy h

/-! ## Code table structure lemmas -/

theorem walkCodes_eq_walkPairs (t : HuffmanNode) (acc : List Bool) :
    walkCodes t acc = (walkPairs t acc).map (fun e => (e.1.1, e.2)) := by
  induction t generalizing acc with
  | leaf b f => simp [walkCodes, walkPairs]
  | internal f l r ihl ihr => simp [walkCodes, walkPairs, ihl, ihr]

theorem walkPairs_fst (t : HuffmanNode) (acc : List Bool) :
    ((walkPairs t acc).map Prod.fst : Multiset (ℕ × ℕ)) = leavesWF t := by
  induction t generalizing acc with
  | leaf b f => simp [walkPairs, leavesWF]
  | internal f l r ihl ihr =>
    simp only [walkPairs, leavesWF, List.map_append, ← ihl (acc ++ [false]),
      ← ihr (acc ++ [true])]
    exact (Multiset.coe_add _ _)

theorem walkCodes_fst (t : HuffmanNode) (acc : List Bool) :
    ((walkCodes t acc).map Prod.fst : Multiset ℕ) = (leavesWF t).map Prod.fst := by
  rw [walkCodes_eq_walkPairs, ← walkPairs_fst t acc]
  simp [List.map_map]
  rfl

theorem walkCodes_ext (t : HuffmanNode) (acc : List Bool) (hacc : acc ≠ []) :
    ∀ e ∈ walkCodes t acc, ∃ s, e.2 = acc ++ s := by
  induction t generalizing acc with
  | leaf b f =>
    intro e he
    simp only [walkCodes, List.mem_singleton] at he
    subst he
    exact ⟨[], by simp [hacc]⟩
  | internal f l r ihl ihr =>
    intro e he
    rcases List.mem_append.1 he with h | h
    · obtain ⟨s, hs⟩ := ihl (acc ++ [false]) (by simp) e h
      exact ⟨false :: s, by simp [hs]⟩
    · obtain ⟨s, hs⟩ := ihr (acc ++ [true]) (by simp) e h
      exact ⟨true :: s, by simp [hs]⟩

theorem walkCodes_pairwise (t : HuffmanNode) (acc : List Bool) (hacc : acc ≠ []) :
    List.Pairwise (fun e1 e2 => ¬ IsPre e1.2 e2.2 ∧ ¬ IsPre e2.2 e1.2)
      (walkCodes t acc) := by
  induction t generalizing acc with
  | leaf b f => simp [walkCodes]
  | internal f l r ihl ihr =>
    simp only [walkCodes]
    refine List.pairwise_append.2
      ⟨ihl (acc ++ [false]) (by simp), ihr (acc ++ [true]) (by simp), ?_⟩
    intro e1 h1 e2 h2
    obtain ⟨s1, hs1⟩ := walkCodes_ext l (acc ++ [false]) (by simp) e1 h1
    obtain ⟨s2, hs2⟩ := walkCodes_ext r (acc ++ [true]) (by simp) e2 h2
    rw [hs1, hs2]
    simp only [List.append_assoc, List.singleton_append]
    exact ⟨not_isPre_of_head_ne acc s1 s2 false true (by simp),
      not_isPre_of_head_ne acc s2 s1 true false (by simp)⟩

theorem codes_pairwise (root : HuffmanNode) :
    List.Pairwise (fun e1 e2 => ¬ IsPre e1.2 e2.2 ∧ ¬ IsPre e2.2 e1.2)
      (build_codes_from_tree root) := by
  match root with
  | .leaf b f => simp [build_codes_from_tree, walkCodes]
  | .internal f l r =>
    simp only [build_codes_from_tree, walkCodes, List.nil_append]
    refine List.pairwise_append.2
      ⟨walkCodes_pairwise l [false] (by simp), walkCodes_pairwise r [true] (by simp), ?_⟩
    intro e1 h1 e2 h2
    obtain ⟨s1, hs1⟩ := walkCodes_ext l [false] (by simp) e1 h1
    obtain ⟨s2, hs2⟩ := walkCodes_ext r [true] (by simp) e2 h2
    rw [hs1, hs2]
    exact ⟨not_isPre_of_head_ne [] s1 s2 false true (by simp),
      not_isPre_of_head_ne [] s2 s1 true false (by simp)⟩

theorem codes_nonempty (root : HuffmanNode) :
    ∀ e ∈ build_codes_from_tree root, e.2 ≠ [] := by
  match root with
  | .leaf b f =>
    intro e he
    simp only [build_codes_from_tree, walkCodes, List.mem_singleton] at he
    subst he; simp
  | .internal f l r =>
    intro e he
    simp only [build_codes_from_tree, walkCodes, List.nil_append] at he
    rcases List.mem_append.1 he with h | h
    · obtain ⟨s, hs⟩ := walkCodes_ext l [false] (by simp) e h
      simp [hs]
    · obtain ⟨s, hs⟩ := walkCodes_ext r [true] (by simp) e h
      simp [hs]

/-! ## Reverse map lemmas -/

theorem isPre_refl (a : List Bool) : IsPre a a := by
  simpa using isPre_append a []

theorem reverseMap_mem (tab : List (ℕ × List Bool)) (c : List Bool) (k : ℕ) :
    (c, k) ∈ reverseMap tab ↔ (k, c) ∈ tab := by
  simp only [reverseMap, List.mem_reverse, List.mem_map]
  constructor
  · rintro ⟨⟨k', c'⟩, hm, he⟩
    simp only [Prod.mk.injEq] at he
    obtain ⟨h1, h2⟩ := he
    subst h1; subst h2
    exact hm
  · intro h
    exact ⟨(k, c), h, rfl⟩

theorem reverseMap_keys_nodup (tab : List (ℕ × List Bool))
    (hpw : List.Pairwise (fun e1 e2 => ¬ IsPre e1.2 e2.2 ∧ ¬ IsPre e2.2 e1.2) tab) :
    ((reverseMap tab).map Prod.fst).Nodup := by
  have hsnd : (tab.map Prod.snd).Nodup := by
    refine List.pairwise_map.2 ?_
    refine hpw.imp ?_
    intro a b h heq
    exact h.1 (by rw [heq]; exact isPre_refl _)
  have he : (reverseMap tab).map Prod.fst = (tab.map Prod.snd).reverse := by
    simp [reverseMap, List.map_reverse, List.map_map]
  rw [he, List.nodup_reverse]
  exact hsnd

theorem assq_reverseMap (tab : List (ℕ × List Bool))
    (hpw : List.Pairwise (fun e1 e2 => ¬ IsPre e1.2 e2.2 ∧ ¬ IsPre e2.2 e1.2) tab)
    (k : ℕ) (c : List Bool) (hm : (k, c) ∈ tab) :
    assq (reverseMap tab) c = some k :=
  assq_of_mem_nodup _ _ _ (reverseMap_keys_nodup tab hpw) ((reverseMap_mem tab c k).2 hm)

theorem assq_reverseMap_none (tab : List (ℕ × List Bool))
    (hpw : List.Pairwise (fun e1 e2 => ¬ IsPre e1.2 e2.2 ∧ ¬ IsPre e2.2 e1.2) tab)
    (k : ℕ) (c c1 c2 : List Bool) (hm : (k, c) ∈ tab)
    (hsplit : c = c1 ++ c2) (hc2 : c2 ≠ []) : assq (reverseMap tab) c1 = none := by
  cases hq : assq (reverseMap tab) c1 with
  | none => rfl
  | some k' =>
    exfalso
    have hmem : (k', c1) ∈ tab := (reverseMap_mem tab c1 k').1 (assq_mem _ _ _ hq)
    have hne : (k', c1) ≠ (k, c) := by
      intro he
      simp only [Prod.mk.injEq] at he
      have hces : c1 = c1 ++ c2 := he.2.symm ▸ hsplit
      have := congrArg List.length hces
      simp only [List.length_append] at this
      exact hc2 (List.length_eq_zero.1 (by omega))
    have hsym : Symmetric (fun (e1 e2 : ℕ × List Bool) =>
        ¬ IsPre e1.2 e2.2 ∧ ¬ IsPre e2.2 e1.2) := fun a b h => ⟨h.2, h.1⟩
    have hR := hpw.forall hsym hmem hm hne
    exact hR.1 (hsplit ▸ isPre_append c1 c2)

/-! ## Decode correctness on encoded streams -/

theorem decodeLoop_code (rmap : List (List Bool × ℕ)) :
    ∀ (c : List Bool) (buf rest : List Bool) (k : ℕ), c ≠ [] →
      assq rmap (buf ++ c) = some k →
      (∀ c1 c2, c = c1 ++ c2 → c2 ≠ [] → assq rmap (buf ++ c1) = none) →
      decodeLoop rmap buf (c ++ rest) = k :: decodeLoop rmap [] rest := by
  intro c
  induction c with
  | nil => intro _ _ _ h _ _; exact absurd rfl h
  | cons x xs ih =>
    intro buf rest k _ hfull hpart
    by_cases hxs : xs = []
    · subst hxs
      simp only [List.singleton_append, decodeLoop]
      rw [hfull]
      simp
    · have hnone : assq rmap (buf ++ [x]) = none := hpart [x] xs rfl hxs
      simp only [List.cons_append, decodeLoop]
      rw [hnone]
      have hfull' : assq rmap ((buf ++ [x]) ++ xs) = some k := by
        rw [List.append_assoc]
        simpa using hfull
      have hpart' : ∀ c1 c2, xs = c1 ++ c2 → c2 ≠ [] →
          assq rmap ((buf ++ [x]) ++ c1) = none := by
        intro c1 c2 hs hc2
        have := hpart (x :: c1) c2 (by simp [hs]) hc2
        rw [List.append_assoc]
        simpa using this
      exact ih (buf ++ [x]) rest k hxs hfull' hpart'

theorem encode_some_decomp (b : ℕ) (rest : List ℕ) (tab : List (ℕ × List Bool))
    (bits : List Bool) (h : encodeWithTable (b :: rest) tab = some bits) :
    ∃ c tbits, assq tab b = some c ∧ encodeWithTable rest tab = some tbits ∧
      bits = c ++ tbits := by
  simp only [encodeWithTable] at h
  cases hc : assq tab b with
  | none => rw [hc] at h; simp at h
  | some c =>
    rw [hc] at h
    cases ht : encodeWithTable rest tab with
    | none => rw [ht] at h; simp at h
    | some tbits =>
      rw [ht] at h
      simp only [Option.some.injEq] at h
      exact ⟨c, tbits, rfl, rfl, h.symm⟩

theorem decode_encode (tab : List (ℕ × List Bool))
    (hpw : List.Pairwise (fun e1 e2 => ¬ IsPre e1.2 e2.2 ∧ ¬ IsPre e2.2 e1.2) tab)
    (hne : ∀ e ∈ tab, e.2 ≠ []) :
    ∀ (ds : List ℕ) (bits : List Bool), encodeWithTable ds tab = some bits →
      decodeLoop (reverseMap tab) [] bits = ds := by
  intro ds
  induction ds with
  | nil =>
    intro bits h
    simp only [encodeWithTable, Option.some.injEq] at h
    subst h
    rfl
  | cons b rest ih =>
    intro bits h
    obtain ⟨c, tbits, hc, ht, rfl⟩ := encode_some_decomp b rest tab bits h
    have hmem : (b, c) ∈ tab := assq_mem _ _ _ hc
    have hcne : c ≠ [] := hne (b, c) hmem
    have hfull : assq (reverseMap tab) ([] ++ c) = some b := by
      simpa using assq_reverseMap tab hpw b c hmem
    have hpart : ∀ c1 c2, c = c1 ++ c2 → c2 ≠ [] →
        assq (reverseMap tab) ([] ++ c1) = none := by
      intro c1 c2 hs hc2
      simpa using assq_reverseMap_none tab hpw b c c1 c2 hmem hs hc2
    rw [decodeLoop_code (reverseMap tab) c [] tbits b hcne hfull hpart, ih tbits ht]

/-! ## The merge loop succeeds on nonempty pools -/

theorem mergeGo_isSome : ∀ (fuel : ℕ) (L : List HuffmanNode), L ≠ [] →
    L.length ≤ fuel + 1 → ∃ t, mergeGo fuel L = some t := by
  intro fuel
  induction fuel with
  | zero =>
    intro L hne hlen
    match L with
    | [] => exact absurd rfl hne
    | [n] => exact ⟨n, rfl⟩
    | a :: b :: rest => simp at hlen
  | succ fuel ih =>
    intro L hne hlen
    match L with
    | [] => exact absurd rfl hne
    | [n] => exact ⟨n, rfl⟩
    | a :: b :: rest =>
      simp only [mergeGo]
      have hplen : (popMin1 HuffmanNode.freq a (b :: rest)).2.length = rest.length + 1 :=
        popMin1_length _ _ _
      rcases hL : (popMin1 HuffmanNode.freq a (b :: rest)).2 with _ | ⟨c, l2⟩
      · rw [hL] at hplen; simp at hplen
      · rw [hL] at hplen
        have hl2 : l2.length = rest.length := by simpa using hplen
        have hrec : ((popMin1 HuffmanNode.freq c l2).2
            ++ [HuffmanNode.internal ((popMin1 HuffmanNode.freq a (b :: rest)).1.freq
              + (popMin1 HuffmanNode.freq c l2).1.freq)
              (popMin1 HuffmanNode.freq a (b :: rest)).1
              (popMin1 HuffmanNode.freq c l2).1]).length = rest.length + 1 := by
          simp [popMin1_length, hl2]
        refine ih _ (by simp) ?_
        rw [hrec]
        simp only [List.length_cons] at hlen
        omega

theorem build_tree_some (data : List ℕ) (hne : data ≠ []) :
    ∃ root, build_huffman_tree_from_bytes data = some root := by
  have hsk : seenKeys data ≠ [] := fun h => hne ((seenKeys_nil_iff data).1 h)
  have hfi : freqItems data ≠ [] := by
    simp only [freqItems]
    exact fun h => hsk (List.map_eq_nil_iff.1 h)
  refine mergeGo_isSome _ _ ?_ (by simp)
  simpa using hfi

/-! ## Key structure of the generated table -/

theorem freqItems_fst (data : List ℕ) :
    (freqItems data).map Prod.fst = seenKeys data := by
  simp only [freqItems, List.map_map]
  exact List.map_congr_left (fun _ _ => rfl) |>.trans (List.map_id _)

theorem table_fst_multiset (data : List ℕ) (root : HuffmanNode)
    (h : build_huffman_tree_from_bytes data = some root) :
    (((build_codes_from_tree root).map Prod.fst : List ℕ) : Multiset ℕ)
      = (seenKeys data : Multiset ℕ) := by
  show ((walkCodes root []).map Prod.fst : Multiset ℕ) = _
  rw [walkCodes_fst, build_tree_leavesWF data root h, Multiset.map_coe, freqItems_fst]

theorem table_keys_nodup (data : List ℕ) (root : HuffmanNode)
    (h : build_huffman_tree_from_bytes data = some root) :
    ((build_codes_from_tree root).map Prod.fst).Nodup := by
  rw [← Multiset.coe_nodup, table_fst_multiset data root h, Multiset.coe_nodup]
  exact nodup_seenKeys data

theorem table_mem_key (data : List ℕ) (root : HuffmanNode)
    (h : build_huffman_tree_from_bytes data = some root) (b : ℕ) (hb : b ∈ data) :
    ∃ c, assq (build_codes_from_tree root) b = some c := by
  have hbk : b ∈ (build_codes_from_tree root).map Prod.fst := by
    rw [← Multiset.mem_coe, table_fst_multiset data root h, Multiset.mem_coe]
    exact (mem_seenKeys data b).2 hb
  obtain ⟨p, hp, he⟩ := List.mem_map.1 hbk
  have hs : (assq (build_codes_from_tree root) b).isSome :=
    (assq_isSome_iff _ _).2 ⟨p, hp, he⟩
  rcases ho : assq (build_codes_from_tree root) b with _ | c
  · rw [ho] at hs; simp at hs
  · exact ⟨c, rfl⟩

theorem encode_total (data : List ℕ) (tab : List (ℕ × List Bool))
    (h : ∀ b ∈ data, (assq tab b).isSome) :
    ∃ bits, encodeWithTable data tab = some bits := by
  induction data with
  | nil => exact ⟨[], rfl⟩
  | cons b rest ih =>
    obtain ⟨tbits, ht⟩ := ih (fun x hx => h x (List.mem_cons_of_mem _ hx))
    have hb := h b (List.mem_cons_self _ _)
    rcases hc : assq tab b with _ | c
    · rw [hc] at hb; simp at hb
    · exact ⟨c ++ tbits, by simp [encodeWithTable, hc, ht]⟩

theorem compress_some (data : List ℕ) (root : HuffmanNode) (bits : List Bool)
    (hroot : build_huffman_tree_from_bytes data = some root)
    (hbits : encodeWithTable data (build_codes_from_tree root) = some bits) :
    huffman_compress_bytes data = some (bits, build_codes_from_tree root) := by
  simp only [huffman_compress_bytes, hroot, hbits]

/-- Claim C1: for every byte sequence S, decoding the bit stream of
huffman_compress_bytes S with the code table that same call produced
returns S exactly. -/
theorem huffman_roundtrip (data : List ℕ) :
    ∃ bits codes, huffman_compress_bytes data = some (bits, codes) ∧
      huffman_decompress_bits bits codes = data := by
  by_cases hne : data = []
  · subst hne
    exact ⟨[], [], rfl, rfl⟩
  · obtain ⟨root, hroot⟩ := build_tree_some data hne
    have hcov : ∀ b ∈ data, (assq (build_codes_from_tree root) b).isSome := by
      intro b hb
      obtain ⟨c, hc⟩ := table_mem_key data root hroot b hb
      simp [hc]
    obtain ⟨bits, hbits⟩ := encode_total data (build_codes_from_tree root) hcov
    refine ⟨bits, build_codes_from_tree root, compress_some data root bits hroot hbits, ?_⟩
    show decodeLoop (reverseMap (build_codes_from_tree root)) [] bits = data
    exact decode_encode (build_codes_from_tree root) (codes_pairwise root)
      (codes_nonempty root) data bits hbits

/-! ## Single-symbol inputs -/

theorem single_symbol_tree (s : ℕ) (data : List ℕ) (hne : data ≠ [])
    (hall : ∀ b ∈ data, b = s) :
    build_huffman_tree_from_bytes data = some (HuffmanNode.leaf s (data.count s)) := by
  have h1 : freqItems data = [(s, data.count s)] := by
    rw [freqItems, seenKeys_const s data hne hall]
    simp
  simp only [build_huffman_tree_from_bytes, h1]
  rfl

theorem encode_const (s : ℕ) (data : List ℕ) (hall : ∀ b ∈ data, b = s) :
    encodeWithTable data [(s, [false])] = some (List.replicate data.length false) := by
  induction data with
  | nil => rfl
  | cons b rest ih =>
    have hb : b = s := hall b (List.mem_cons_self _ _)
    have ihr := ih (fun x hx => hall x (List.mem_cons_of_mem _ hx))
    simp [encodeWithTable, assq, hb, ihr, List.replicate_succ]

/-! ## Output length of the decoder is bounded by the stream length -/

theorem decodeLoop_length (rmap : List (List Bool × ℕ)) :
    ∀ (bits buf : List Bool), (decodeLoop rmap buf bits).length ≤ bits.length := by
  intro bits
  induction bits with
  | nil => intro buf; simp [decodeLoop]
  | cons bit rest ih =>
    intro buf
    simp only [decodeLoop]
    cases assq rmap (buf ++ [bit]) with
    | none => exact le_trans (ih _) (by simp)
    | some k => simpa using ih []

/-! ## Claim theorems C2, C4-C10 -/

/-- Claim C2, counterexample: the decoder has no failure channel.  Decoding
the stream produced from B = [1, 1] with the table built from A = [0]
returns the silently-wrong sequence [0, 0], and a stream ending in an
unresolved nonempty buffer ([true] against code table {0 : "0"}) returns a
truncated (empty) output instead of an error. -/
theorem decode_silent_wrong :
    huffman_compress_bytes [1, 1] = some ([false, false], [(1, [false])]) ∧
      huffman_compress_bytes [0] = some ([false], [(0, [false])]) ∧
      huffman_decompress_bits [false, false] [(0, [false])] = [0, 0] ∧
      huffman_decompress_bits [true] [(0, [false])] = [] := by
  refine ⟨by decide, by decide, by decide, by decide⟩

/-- Claim C2, amended: the decoder always terminates and never signals a
failure; at stream exhaustion any unresolved nonempty buffer is silently
dropped, and decoding with a foreign code table can return a
silently-wrong or truncated byte sequence. -/
theorem decode_no_failure_channel :
    (∀ (codes : List (ℕ × List Bool)) (buf : List Bool),
        decodeLoop (reverseMap codes) buf [] = []) ∧
      (∀ (codes : List (ℕ × List Bool)) (bits : List Bool),
        (huffman_decompress_bits bits codes).length ≤ bits.length) ∧
      huffman_decompress_bits [false, false] [(0, [false])] = [0, 0] ∧
      huffman_decompress_bits [true] [(0, [false])] = [] := by
  refine ⟨fun codes buf => rfl, fun codes bits => decodeLoop_length _ _ _,
    by decide, by decide⟩

/-- Claim C4: over any input with at least two distinct byte values (all
below 256), the generated code table is injective and no code is a prefix
of another. -/
theorem codes_injective_and_pf (data : List ℕ) (root : HuffmanNode)
    (_hbytes : ∀ b ∈ data, b < 256) (_hsize : 2 ≤ (seenKeys data).length)
    (hroot : build_huffman_tree_from_bytes data = some root) :
    ((build_codes_from_tree root).map Prod.fst).Nodup ∧
      List.Pairwise (fun e1 e2 => e1.2 ≠ e2.2 ∧ ¬ IsPre e1.2 e2.2 ∧ ¬ IsPre e2.2 e1.2)
        (build_codes_from_tree root) := by
  refine ⟨table_keys_nodup data root hroot, (codes_pairwise root).imp ?_⟩
  intro a b h
  exact ⟨fun heq => h.1 (heq ▸ isPre_refl _), h.1, h.2⟩

theorem codes_injective_and_pf_witness :
    (∀ b ∈ [0, 1], b < 256) ∧ 2 ≤ (seenKeys [0, 1]).length ∧
      (((build_codes_from_tree (HuffmanNode.internal 2 (.leaf 0 1)
          (.leaf 1 1))).map Prod.fst).Nodup ∧
        List.Pairwise (fun e1 e2 => e1.2 ≠ e2.2 ∧ ¬ IsPre e1.2 e2.2 ∧ ¬ IsPre e2.2 e1.2)
          (build_codes_from_tree (HuffmanNode.internal 2 (.leaf 0 1) (.leaf 1 1)))) :=
  ⟨by decide, by decide,
    codes_injective_and_pf [0, 1] (HuffmanNode.internal 2 (.leaf 0 1) (.leaf 1 1))
      (by decide) (by decide) (by decide)⟩

/-- Claim C5: on a nonempty input whose bytes are all equal, the code table
maps that byte to the single-bit code "0" (false) and the encoded stream
is one bit per input symbol. -/
theorem single_symbol_compress (s : ℕ) (data : List ℕ) (hne : data ≠ [])
    (hall : ∀ b ∈ data, b = s) :
    huffman_compress_bytes data
        = some (List.replicate data.length false, [(s, [false])]) ∧
      (List.replicate data.length false).length = data.length := by
  have htree := single_symbol_tree s data hne hall
  have htab : build_codes_from_tree (HuffmanNode.leaf s (data.count s)) = [(s, [false])] := rfl
  have henc := encode_const s data hall
  refine ⟨?_, by simp⟩
  have := compress_some data (HuffmanNode.leaf s (data.count s))
    (List.replicate data.length false) htree (by rw [htab]; exact henc)
  rw [this, htab]

theorem single_symbol_compress_witness :
    ([65, 65, 65, 65] : List ℕ) ≠ [] ∧
      huffman_compress_bytes [65, 65, 65, 65]
        = some (List.replicate (List.length [65, 65, 65, 65]) false, [(65, [false])]) :=
  ⟨by decide,
    (single_symbol_compress 65 [65, 65, 65, 65] (by decide) (by decide)).1⟩

/-- Claim C7: compressing the empty sequence yields the empty stream and
empty table without error, and decoding the empty stream with the empty
table yields the empty sequence. -/
theorem empty_roundtrip :
    huffman_compress_bytes [] = some ([], []) ∧
      huffman_decompress_bits [] [] = [] :=
  ⟨rfl, rfl⟩

/-- Claim C8: encoding fails (KeyError, modelled as none) precisely when
some input symbol is missing from the supplied code table; with full
coverage it succeeds. -/
theorem encode_none_iff_missing (data : List ℕ) (tab : List (ℕ × List Bool)) :
    encodeWithTable data tab = none ↔ ∃ b ∈ data, assq tab b = none := by
  induction data with
  | nil => simp [encodeWithTable]
  | cons b rest ih =>
    simp only [encodeWithTable]
    cases hc : assq tab b with
    | none =>
      constructor
      · intro _
        exact ⟨b, List.mem_cons_self _ _, hc⟩
      · intro _
        rfl
    | some c =>
      cases ht : encodeWithTable rest tab with
      | none =>
        obtain ⟨x, hx, hnx⟩ := ih.1 ht
        constructor
        · intro _
          exact ⟨x, List.mem_cons_of_mem _ hx, hnx⟩
        · intro _
          rfl
      | some tbits =>
        constructor
        · intro h
          simp at h
        · rintro ⟨x, hx, hnone⟩
          rcases List.mem_cons.1 hx with he | hx2
          · rw [he] at hnone
            rw [hnone] at hc
            simp at hc
          · have h2 : encodeWithTable rest tab = none := ih.2 ⟨x, hx2, hnone⟩
            rw [h2] at ht
            simp at ht

/-- Claim C9: the decoder is a terminating single pass: it emits at most
one symbol per input bit, emits exactly when the grown buffer equals a
table code, and at stream exhaustion returns with any unresolved buffer
discarded and no error. -/
theorem decode_greedy_single_pass (codes : List (ℕ × List Bool)) (bits : List Bool) :
    (huffman_decompress_bits bits codes).length ≤ bits.length ∧
      (∀ (rmap : List (List Bool × ℕ)) (buf : List Bool), decodeLoop rmap buf [] = []) ∧
      (∀ (rmap : List (List Bool × ℕ)) (buf : List Bool) (bit : Bool) (rest : List Bool),
        decodeLoop rmap buf (bit :: rest) =
          (assq rmap (buf ++ [bit])).elim (decodeLoop rmap (buf ++ [bit]) rest)
            (fun k => k :: decodeLoop rmap [] rest)) := by
  refine ⟨decodeLoop_length _ _ _, fun rmap buf => rfl, fun rmap buf bit rest => ?_⟩
  simp only [decodeLoop]
  cases assq rmap (buf ++ [bit]) <;> rfl

/-- Claim C10, counterexample: with a negative deadband the two threshold
conditions overlap and the first branch wins: at temp 0, setpoint 0,
deadband -1, last value 50, the temperature exceeds setpoint + deadband
yet the controller returns 100, not 0. -/
theorem onoff_overlap_counterexample :
    onoff_control 0 0 (-1) 50 = 100 ∧ ((0 : ℚ) > 0 + (-1)) ∧ (100 : ℚ) ≠ 0 := by
  norm_num [onoff_control]

/-- Claim C10, amended: the branches are tested in order — 100 below the
lower threshold, otherwise 0 above the upper threshold, otherwise the
previous value; hence an output starting in {0, 100} stays in {0, 100}. -/
theorem onoff_control_cases (temp setpoint deadband last_val : ℚ) :
    (temp < setpoint - deadband → onoff_control temp setpoint deadband last_val = 100) ∧
      (¬ temp < setpoint - deadband → temp > setpoint + deadband →
        onoff_control temp setpoint deadband last_val = 0) ∧
      (¬ temp < setpoint - deadband → ¬ temp > setpoint + deadband →
        onoff_control temp setpoint deadband last_val = last_val) ∧
      ((last_val = 0 ∨ last_val = 100) →
        onoff_control temp setpoint deadband last_val = 0 ∨
          onoff_control temp setpoint deadband last_val = 100) := by
  unfold onoff_control
  refine ⟨fun h1 => by rw [if_pos h1], fun h1 h2 => by rw [if_neg h1, if_pos h2],
    fun h1 h2 => by rw [if_neg h1, if_neg h2], fun hl => ?_⟩
  split_ifs
  · exact Or.inr rfl
  · exact Or.inl rfl
  · exact hl

theorem onoff_control_cases_witness :
    (0 : ℚ) < 1 - 0 ∧ onoff_control 0 1 0 7 = 100 :=
  ⟨by simp, (onoff_control_cases 0 1 0 7).1 (by simp)⟩

/-! ## Regrouping a sum over the input by distinct symbols -/

theorem sum_map_filter_add {α : Type} (l : List α) (F : α → ℕ) (p : α → Bool) :
    ((l.filter p).map F).sum + ((l.filter (fun x => !(p x))).map F).sum
      = (l.map F).sum := by
  induction l with
  | nil => rfl
  | cons b rest ih =>
    by_cases hb : p b
    · simp only [List.filter_cons, hb, Bool.not_true, if_pos, List.map_cons,
        List.sum_cons, Bool.false_eq_true, if_false]
      omega
    · simp only [List.filter_cons, hb, Bool.not_false, if_pos, List.map_cons,
        List.sum_cons, Bool.false_eq_true, if_false]
      omega

theorem filter_eq_single_of_nodup (l : List ℕ) (b : ℕ) (hnd : l.Nodup)
    (hb : b ∈ l) : l.filter (fun x => x = b) = [b] := by
  induction l with
  | nil => simp at hb
  | cons a rest ih =>
    simp only [List.nodup_cons] at hnd
    rcases List.mem_cons.1 hb with he | hmem
    · subst he
      have hnone : rest.filter (fun x => x = b) = [] := by
        refine List.filter_eq_nil_iff.2 ?_
        intro x hx
        simp only [decide_eq_true_eq]
        intro hxb
        exact hnd.1 (hxb ▸ hx)
      simp [List.filter_cons, hnone]
    · have hab : a ≠ b := by
        intro he2
        exact hnd.1 (he2 ▸ hmem)
      simp only [List.filter_cons, hab, decide_eq_true_eq, if_false]
      simpa [hab] using ih hnd.2 hmem

theorem sum_map_count (data : List ℕ) (g : ℕ → ℕ) :
    (data.map g).sum = ((seenKeys data).map (fun k => data.count k * g k)).sum := by
  induction data with
  | nil => rfl
  | cons b t ih =>
    simp only [seenKeys, List.map_cons, List.sum_cons, List.count_cons_self]
    have hcongr : ((seenKeys t).filter (fun x => x ≠ b)).map
          (fun k => (b :: t).count k * g k)
        = ((seenKeys t).filter (fun x => x ≠ b)).map (fun k => t.count k * g k) := by
      refine List.map_congr_left ?_
      intro k hk
      have hkb : k ≠ b := by
        have := (List.mem_filter.1 hk).2
        simpa using this
      rw [List.count_cons_of_ne hkb]
    rw [hcongr, ih]
    have hsplit := sum_map_filter_add (seenKeys t) (fun k => t.count k * g k)
      (fun x => x = b)
    have hneq : (seenKeys t).filter (fun x => !(decide (x = b)))
        = (seenKeys t).filter (fun x => x ≠ b) := by
      refine List.filter_congr ?_
      intro k _
      simp [decide_not]
    rw [hneq] at hsplit
    rw [← hsplit]
    by_cases hb : b ∈ seenKeys t
    · have hfe : (seenKeys t).filter (fun x => x = b) = [b] :=
        filter_eq_single_of_nodup _ b (nodup_seenKeys t) hb
      rw [hfe]
      simp only [List.map_cons, List.sum_cons, List.map_nil, List.sum_nil]
      ring
    · have hfe : (seenKeys t).filter (fun x => x = b) = [] := by
        refine List.filter_eq_nil_iff.2 ?_
        intro x hx
        simp only [decide_eq_true_eq]
        intro hxb
        exact hb (hxb ▸ hx)
      have hcz : t.count b = 0 :=
        List.count_eq_zero.2 (fun hc => hb ((mem_seenKeys t b).2 hc))
      rw [hfe, hcz]
      simp

theorem encode_length (data : List ℕ) (tab : List (ℕ × List Bool)) :
    ∀ bits, encodeWithTable data tab = some bits →
      bits.length = (data.map (fun b => ((assq tab b).getD []).length)).sum := by
  induction data with
  | nil =>
    intro bits h
    simp only [encodeWithTable, Option.some.injEq] at h
    subst h
    rfl
  | cons b rest ih =>
    intro bits h
    obtain ⟨c, tbits, hc, ht, rfl⟩ := encode_some_decomp b rest tab bits h
    simp [hc, ih tbits ht]

/-- Claim C6: with full table coverage of the input, encoding succeeds and
the stream length is the sum over distinct symbols of multiplicity times
code length. -/
theorem encode_length_eq (data : List ℕ) (tab : List (ℕ × List Bool))
    (hcov : ∀ b ∈ data, (assq tab b).isSome) :
    ∃ bits, encodeWithTable data tab = some bits ∧
      bits.length = tableCodeCost data tab := by
  obtain ⟨bits, hbits⟩ := encode_total data tab hcov
  refine ⟨bits, hbits, ?_⟩
  rw [encode_length data tab bits hbits, tableCodeCost,
    sum_map_count data (fun b => ((assq tab b).getD []).length)]
  simp only [freqItems, List.map_map]
  exact congrArg List.sum (List.map_congr_left (fun _ _ => rfl))

theorem encode_length_eq_witness :
    (∀ b ∈ ([0, 1, 1] : List ℕ), (assq [(0, [false]), (1, [true, true])] b).isSome) ∧
      ∃ bits, encodeWithTable [0, 1, 1] [(0, [false]), (1, [true, true])] = some bits ∧
        bits.length = tableCodeCost [0, 1, 1] [(0, [false]), (1, [true, true])] :=
  ⟨by decide, encode_length_eq [0, 1, 1] [(0, [false]), (1, [true, true])] (by decide)⟩

/-! ## The weight recurrence is a multiset function -/

theorem popMin1_mem {α : Type} (wt : α → ℕ) (a : α) (l : List α) :
    (popMin1 wt a l).1 ∈ a :: l :=
  (popMin1_perm wt a l).mem_iff.1 (List.mem_cons_self _ _)

theorem popMin1_id_eq_of_perm (a a' : ℕ) (l l' : List ℕ)
    (h : List.Perm (a :: l) (a' :: l')) :
    (popMin1 id a l).1 = (popMin1 id a' l').1 ∧
      List.Perm (popMin1 id a l).2 (popMin1 id a' l').2 := by
  have hm1 : (popMin1 id a l).1 ∈ a :: l := popMin1_mem id a l
  have hm2 : (popMin1 id a' l').1 ∈ a' :: l' := popMin1_mem id a' l'
  have hmin1 := popMin1_min id a l
  have hmin2 := popMin1_min id a' l'
  have heq : (popMin1 id a l).1 = (popMin1 id a' l').1 := by
    have h1 : id (popMin1 id a l).1 ≤ id (popMin1 id a' l').1 :=
      hmin1 _ (h.mem_iff.2 hm2)
    have h2 : id (popMin1 id a' l').1 ≤ id (popMin1 id a l).1 :=
      hmin2 _ (h.symm.mem_iff.2 hm1)
    simp only [id_eq] at h1 h2
    omega
  refine ⟨heq, ?_⟩
  have hp1 := popMin1_perm id a l
  have hp2 := popMin1_perm id a' l'
  have hcoe : ((popMin1 id a l).1 ::ₘ (↑(popMin1 id a l).2 : Multiset ℕ))
      = (popMin1 id a' l').1 ::ₘ (↑(popMin1 id a' l').2 : Multiset ℕ) := by
    have e1 : ((popMin1 id a l).1 ::ₘ (↑(popMin1 id a l).2 : Multiset ℕ))
        = ↑(a :: l) := by
      rw [Multiset.cons_coe]
      exact Multiset.coe_eq_coe.2 hp1
    have e2 : ((popMin1 id a' l').1 ::ₘ (↑(popMin1 id a' l').2 : Multiset ℕ))
        = ↑(a' :: l') := by
      rw [Multiset.cons_coe]
      exact Multiset.coe_eq_coe.2 hp2
    rw [e1, e2]
    exact Multiset.coe_eq_coe.2 h
  rw [heq] at hcoe
  exact Multiset.coe_eq_coe.1 ((Multiset.cons_inj_right _).1 hcoe)

theorem hcGo_cons2 (fuel : ℕ) (a b : ℕ) (rest : List ℕ) (c : ℕ) (l2 : List ℕ)
    (hL : (popMin1 id a (b :: rest)).2 = c :: l2) :
    hcGo (fuel + 1) (a :: b :: rest)
      = ((popMin1 id a (b :: rest)).1 + (popMin1 id c l2).1)
        + hcGo fuel ((popMin1 id c l2).2
            ++ [(popMin1 id a (b :: rest)).1 + (popMin1 id c l2).1]) := by
  simp only [hcGo]
  rw [hL]

theorem hcGo_perm : ∀ (fuel : ℕ) (l l' : List ℕ), List.Perm l l' →
    l.length ≤ fuel + 1 → hcGo fuel l = hcGo fuel l' := by
  intro fuel
  induction fuel with
  | zero =>
    intro l l' hperm hlen
    match l, hperm, hlen with
    | [], hperm, _ => rw [hperm.symm.eq_nil]
    | [x], hperm, _ => rw [List.singleton_perm.1 hperm]
    | a :: b :: rest, _, hlen => simp at hlen
  | succ fuel ih =>
    intro l l' hperm hlen
    match l, hperm, hlen with
    | [], hperm, _ => rw [hperm.symm.eq_nil]
    | [x], hperm, _ => rw [List.singleton_perm.1 hperm]
    | a :: b :: rest, hperm, hlen =>
      have hlen2 := hperm.length_eq
      match l', hperm, hlen2 with
      | [], _, hlen2 => simp at hlen2
      | [x], _, hlen2 => simp at hlen2
      | a' :: b' :: rest', hperm, _ =>
        obtain ⟨he1, hq1⟩ := popMin1_id_eq_of_perm a a' (b :: rest) (b' :: rest') hperm
        have hplen : (popMin1 id a (b :: rest)).2.length = rest.length + 1 :=
          popMin1_length _ _ _
        rcases hL : (popMin1 id a (b :: rest)).2 with _ | ⟨c, l2⟩
        · rw [hL] at hplen; simp at hplen
        · rcases hL' : (popMin1 id a' (b' :: rest')).2 with _ | ⟨c', l2'⟩
          · rw [hL, hL'] at hq1
            have := hq1.length_eq
            simp at this
          · rw [hL, hL'] at hq1
            obtain ⟨he2, hq2⟩ := popMin1_id_eq_of_perm c c' l2 l2' hq1
            rw [hcGo_cons2 fuel a b rest c l2 hL, hcGo_cons2 fuel a' b' rest' c' l2' hL',
              he1, he2]
            have hrecperm : List.Perm
                ((popMin1 id c l2).2 ++ [(popMin1 id a' (b' :: rest')).1
                  + (popMin1 id c' l2').1])
                ((popMin1 id c' l2').2 ++ [(popMin1 id a' (b' :: rest')).1
                  + (popMin1 id c' l2').1]) :=
              hq2.append_right _
            have h1 : l2.length = rest.length := by
              rw [hL] at hplen
              simpa using hplen
            have h2 : (popMin1 id c l2).2.length = l2.length := popMin1_length _ _ _
            have hlenrec : ((popMin1 id c l2).2
                ++ [(popMin1 id a' (b' :: rest')).1 + (popMin1 id c' l2').1]).length
                  ≤ fuel + 1 := by
              simp only [List.length_append, List.length_cons, List.length_nil] at hlen ⊢
              omega
            rw [ih _ _ hrecperm hlenrec]

theorem hc_perm (l l' : List ℕ) (h : List.Perm l l') : hc l = hc l' := by
  rw [hc, hc, h.length_eq]
  exact hcGo_perm _ _ _ h (by rw [h.length_eq]; omega)

theorem hcM_coe (l : List ℕ) : hcM (↑l : Multiset ℕ) = hc l := by
  rw [hcM]
  refine hc_perm _ _ ?_
  rw [← Multiset.coe_eq_coe, Multiset.sort_eq]

theorem hc_cons2 (x y : ℕ) (t : List ℕ) (hxy : x ≤ y) (hyt : ∀ z ∈ t, y ≤ z) :
    hc (x :: y :: t) = x + y + hc ((x + y) :: t) := by
  have hp1 : popMin1 id x (y :: t) = (x, y :: t) := by
    refine popMin1_of_le id x (y :: t) ?_
    intro z hz
    rcases List.mem_cons.1 hz with he | hz2
    · simp only [he, id_eq]
      exact hxy
    · simpa using le_trans hxy (hyt z hz2)
  have hp2 : popMin1 id y t = (y, t) := by
    refine popMin1_of_le id y t ?_
    intro z hz
    simpa using hyt z hz
  have hL : (popMin1 id x (y :: t)).2 = y :: t := by rw [hp1]
  show hcGo (x :: y :: t).length (x :: y :: t) = _
  simp only [List.length_cons]
  rw [hcGo_cons2 (t.length + 1) x y t y t hL, hp1, hp2]
  have hperm : List.Perm (t ++ [x + y]) ((x + y) :: t) := List.perm_append_singleton _ _
  rw [hcGo_perm (t.length + 1) (t ++ [x + y]) ((x + y) :: t) hperm (by simp)]
  rfl

/-! ## Cost of the merged tree equals the weight recurrence -/

theorem freq_internal (f : ℕ) (l r : HuffmanNode) :
    (HuffmanNode.internal f l r).freq = f := rfl

theorem freq_leaf (b f : ℕ) : (HuffmanNode.leaf b f).freq = f := rfl

theorem mergeGo_cons2 (fuel : ℕ) (a b : HuffmanNode) (rest : List HuffmanNode)
    (c : HuffmanNode) (l2 : List HuffmanNode)
    (hL : (popMin1 HuffmanNode.freq a (b :: rest)).2 = c :: l2) :
    mergeGo (fuel + 1) (a :: b :: rest)
      = mergeGo fuel ((popMin1 HuffmanNode.freq c l2).2
          ++ [HuffmanNode.internal
              ((popMin1 HuffmanNode.freq a (b :: rest)).1.freq
                + (popMin1 HuffmanNode.freq c l2).1.freq)
              (popMin1 HuffmanNode.freq a (b :: rest)).1
              (popMin1 HuffmanNode.freq c l2).1]) := by
  simp only [mergeGo]
  rw [hL]

theorem mergeGo_cost : ∀ (fuel : ℕ) (L : List HuffmanNode) (t : HuffmanNode),
    mergeGo fuel L = some t →
    treeCost t = (L.map treeCost).sum + hcGo fuel (L.map HuffmanNode.freq) := by
  intro fuel
  induction fuel with
  | zero =>
    intro L t h
    match L, h with
    | [], h => simp [mergeGo] at h
    | [n], h =>
      simp only [mergeGo, Option.some.injEq] at h
      subst h
      simp [hcGo]
    | a :: b :: rest, h => simp [mergeGo] at h
  | succ fuel ih =>
    intro L t h
    match L, h with
    | [], h => simp [mergeGo] at h
    | [n], h =>
      simp only [mergeGo, Option.some.injEq] at h
      subst h
      simp [hcGo]
    | a :: b :: rest, h =>
      have hplen : (popMin1 HuffmanNode.freq a (b :: rest)).2.length
          = rest.length + 1 := popMin1_length _ _ _
      rcases hL : (popMin1 HuffmanNode.freq a (b :: rest)).2 with _ | ⟨c, l2⟩
      · rw [hL] at hplen; simp at hplen
      · rw [mergeGo_cons2 fuel a b rest c l2 hL] at h
        have hrec := ih _ _ h
        obtain ⟨hm1a, hm1b⟩ := popMin1_map HuffmanNode.freq a (b :: rest)
        obtain ⟨hm2a, hm2b⟩ := popMin1_map HuffmanNode.freq c l2
        have hL' : (popMin1 id (HuffmanNode.freq a)
              (HuffmanNode.freq b :: rest.map HuffmanNode.freq)).2
            = HuffmanNode.freq c :: l2.map HuffmanNode.freq := by
          have : (popMin1 id (HuffmanNode.freq a)
              ((b :: rest).map HuffmanNode.freq)).2
              = (c :: l2).map HuffmanNode.freq := by
            rw [← hm1b, hL]
          simpa using this
        have hcg : hcGo (fuel + 1) ((a :: b :: rest).map HuffmanNode.freq)
            = ((popMin1 id (HuffmanNode.freq a)
                  (HuffmanNode.freq b :: rest.map HuffmanNode.freq)).1
                + (popMin1 id (HuffmanNode.freq c) (l2.map HuffmanNode.freq)).1)
              + hcGo fuel ((popMin1 id (HuffmanNode.freq c) (l2.map HuffmanNode.freq)).2
                  ++ [(popMin1 id (HuffmanNode.freq a)
                        (HuffmanNode.freq b :: rest.map HuffmanNode.freq)).1
                      + (popMin1 id (HuffmanNode.freq c)
                          (l2.map HuffmanNode.freq)).1]) := by
          simp only [List.map_cons]
          exact hcGo_cons2 fuel (HuffmanNode.freq a) (HuffmanNode.freq b)
            (rest.map HuffmanNode.freq) (HuffmanNode.freq c)
            (l2.map HuffmanNode.freq) hL'
        have hperm1 := popMin1_perm HuffmanNode.freq a (b :: rest)
        have hperm2 := popMin1_perm HuffmanNode.freq c l2
        rw [hL] at hperm1
        have hsum1 : ((a :: b :: rest).map treeCost).sum
            = treeCost (popMin1 HuffmanNode.freq a (b :: rest)).1
              + ((c :: l2).map treeCost).sum := by
          have := List.Perm.sum_eq (hperm1.map treeCost)
          simpa using this.symm
        have hsum2 : ((c :: l2).map treeCost).sum
            = treeCost (popMin1 HuffmanNode.freq c l2).1
              + ((popMin1 HuffmanNode.freq c l2).2.map treeCost).sum := by
          have := List.Perm.sum_eq (hperm2.map treeCost)
          simpa using this.symm
        simp only [List.map_cons] at hm1a hm1b hm2a hm2b
        rw [hrec, hcg, hsum1, hsum2]
        simp only [List.map_append, List.map_cons, List.map_nil, List.sum_append,
          List.sum_cons, List.sum_nil, treeCost, freq_internal]
        rw [← hm1a, ← hm2a, ← hm2b]
        omega

theorem build_tree_cost (data : List ℕ) (root : HuffmanNode)
    (h : build_huffman_tree_from_bytes data = some root) :
    treeCost root = hc ((freqItems data).map Prod.snd) := by
  have hcost := mergeGo_cost _ _ _ h
  rw [hcost]
  have hzero : (((freqItems data).map
      (fun p => HuffmanNode.leaf p.1 p.2)).map treeCost).sum = 0 := by
    rw [List.map_map]
    induction freqItems data with
    | nil => rfl
    | cons p rest ih => simpa [treeCost] using ih
  have hfreq : ((freqItems data).map
        (fun p => HuffmanNode.leaf p.1 p.2)).map HuffmanNode.freq
      = (freqItems data).map Prod.snd := by
    rw [List.map_map]
    exact List.map_congr_left (fun p _ => rfl)
  rw [hzero, hfreq, hc]
  simp only [List.length_map]
  omega

/-! ## Frequency consistency of built trees -/

theorem mergeGo_consistent : ∀ (fuel : ℕ) (L : List HuffmanNode) (t : HuffmanNode),
    mergeGo fuel L = some t → (∀ x ∈ L, freqConsistent x) → freqConsistent t := by
  intro fuel
  induction fuel with
  | zero =>
    intro L t h hall
    match L, h with
    | [], h => simp [mergeGo] at h
    | [n], h =>
      simp only [mergeGo, Option.some.injEq] at h
      subst h
      exact hall n (List.mem_cons_self _ _)
    | a :: b :: rest, h => simp [mergeGo] at h
  | succ fuel ih =>
    intro L t h hall
    match L, h with
    | [], h => simp [mergeGo] at h
    | [n], h =>
      simp only [mergeGo, Option.some.injEq] at h
      subst h
      exact hall n (List.mem_cons_self _ _)
    | a :: b :: rest, h =>
      have hplen : (popMin1 HuffmanNode.freq a (b :: rest)).2.length
          = rest.length + 1 := popMin1_length _ _ _
      rcases hL : (popMin1 HuffmanNode.freq a (b :: rest)).2 with _ | ⟨c, l2⟩
      · rw [hL] at hplen; simp at hplen
      · rw [mergeGo_cons2 fuel a b rest c l2 hL] at h
        have hperm1 := popMin1_perm HuffmanNode.freq a (b :: rest)
        have hperm2 := popMin1_perm HuffmanNode.freq c l2
        rw [hL] at hperm1
        have hmem1 : ∀ x ∈ c :: l2, x ∈ a :: b :: rest := by
          intro x hx
          exact hperm1.mem_iff.1 (List.mem_cons_of_mem _ hx)
        refine ih _ _ h ?_
        intro x hx
        rcases List.mem_append.1 hx with hx1 | hx1
        · have : x ∈ c :: l2 := hperm2.mem_iff.1 (List.mem_cons_of_mem _ hx1)
          exact hall x (hmem1 x this)
        · simp only [List.mem_singleton] at hx1
          subst hx1
          refine ⟨rfl, ?_, ?_⟩
          · exact hall _ (hperm1.mem_iff.1 (List.mem_cons_self _ _))
          · exact hall _ (hmem1 _ (hperm2.mem_iff.1 (List.mem_cons_self _ _)))

theorem build_tree_consistent (data : List ℕ) (root : HuffmanNode)
    (h : build_huffman_tree_from_bytes data = some root) : freqConsistent root := by
  refine mergeGo_consistent _ _ _ h ?_
  intro x hx
  obtain ⟨p, _, he⟩ := List.mem_map.1 hx
  rw [← he]
  trivial

/-! ## Cost of the table in terms of the tree -/

theorem walkPairs_cost : ∀ (t : HuffmanNode) (acc : List Bool), freqConsistent t →
    acc ≠ [] →
    ((walkPairs t acc).map (fun e => e.1.2 * e.2.length)).sum
      = treeCost t + t.freq * acc.length := by
  intro t
  induction t with
  | leaf b f =>
    intro acc _ hacc
    simp [walkPairs, hacc, treeCost, freq_leaf]
  | internal f l r ihl ihr =>
    intro acc hcons hacc
    obtain ⟨hf, hl, hr⟩ := hcons
    simp only [walkPairs, List.map_append, List.sum_append]
    rw [ihl _ hl (by simp), ihr _ hr (by simp)]
    simp only [List.length_append, List.length_cons, List.length_nil, treeCost,
      freq_internal, hf]
    ring

theorem walkPairs_cost_root (f : ℕ) (l r : HuffmanNode)
    (hcons : freqConsistent (HuffmanNode.internal f l r)) :
    ((walkPairs (HuffmanNode.internal f l r) []).map
        (fun e => e.1.2 * e.2.length)).sum
      = treeCost (HuffmanNode.internal f l r) := by
  obtain ⟨hf, hl, hr⟩ := hcons
  simp only [walkPairs, List.nil_append, List.map_append, List.sum_append]
  rw [walkPairs_cost l [false] hl (by simp), walkPairs_cost r [true] hr (by simp)]
  simp only [List.length_cons, List.length_nil, treeCost, freq_internal, hf]
  ring

theorem tableCodeCost_eq (data : List ℕ) (root : HuffmanNode)
    (h : build_huffman_tree_from_bytes data = some root) :
    tableCodeCost data (build_codes_from_tree root)
      = ((walkPairs root []).map (fun e => e.1.2 * e.2.length)).sum := by
  have hperm : List.Perm (freqItems data) ((walkPairs root []).map Prod.fst) := by
    rw [← Multiset.coe_eq_coe, walkPairs_fst root [], build_tree_leavesWF data root h]
  have h1 : tableCodeCost data (build_codes_from_tree root)
      = (((walkPairs root []).map Prod.fst).map
          (fun p => p.2 * ((assq (build_codes_from_tree root) p.1).getD []).length)).sum := by
    rw [tableCodeCost]
    exact List.Perm.sum_eq (hperm.map _)
  rw [h1, List.map_map]
  refine congrArg List.sum ?_
  refine List.map_congr_left ?_
  intro e he
  have hmem : (e.1.1, e.2) ∈ walkCodes root [] := by
    rw [walkCodes_eq_walkPairs]
    exact List.mem_map.2 ⟨e, he, rfl⟩
  have hassq : assq (build_codes_from_tree root) e.1.1 = some e.2 :=
    assq_of_mem_nodup _ _ _ (table_keys_nodup data root h) hmem
  simp [hassq]

theorem root_internal_of_two (data : List ℕ) (root : HuffmanNode)
    (h : build_huffman_tree_from_bytes data = some root)
    (hsize : 2 ≤ (seenKeys data).length) :
    ∃ f l r, root = HuffmanNode.internal f l r := by
  match root with
  | .internal f l r => exact ⟨f, l, r, rfl⟩
  | .leaf b f =>
    exfalso
    have hl := build_tree_leavesWF data (.leaf b f) h
    have hcard := congrArg Multiset.card hl
    simp only [leavesWF, Multiset.card_singleton, Multiset.coe_card,
      List.length_map, freqItems] at hcard
    omega

theorem build_tree_alpha1 (data : List ℕ) (s : ℕ) (hsk : seenKeys data = [s])
    (root : HuffmanNode) (h : build_huffman_tree_from_bytes data = some root) :
    root = HuffmanNode.leaf s (data.count s) := by
  have hb : build_huffman_tree_from_bytes data
      = some (HuffmanNode.leaf s (data.count s)) := by
    simp only [build_huffman_tree_from_bytes, freqItems, hsk]
    rfl
  rw [hb] at h
  injection h with h2
  exact h2.symm

theorem tableCodeCost_alpha1 (data : List ℕ) (s : ℕ) (hsk : seenKeys data = [s]) :
    tableCodeCost data (build_codes_from_tree (HuffmanNode.leaf s (data.count s)))
      = data.count s := by
  simp [tableCodeCost, freqItems, hsk, build_codes_from_tree, walkCodes, assq]

/-! ## Kraft inequality for prefix-free code lists -/

theorem isPre_cons_iff (x y : Bool) (xs ys : List Bool) :
    IsPre (x :: xs) (y :: ys) ↔ x = y ∧ IsPre xs ys := by
  simp [IsPre, isPre]

theorem kraft_le : ∀ (B : ℕ) (L : List (List Bool)),
    (∀ c ∈ L, c ≠ []) →
    List.Pairwise (fun c d => ¬ IsPre c d ∧ ¬ IsPre d c) L →
    (∀ c ∈ L, c.length ≤ B) →
    (L.map (fun c => 2 ^ (B - c.length))).sum ≤ 2 ^ B := by
  intro B
  induction B with
  | zero =>
    intro L hne hpw hlen
    match L with
    | [] => simp
    | c :: L' =>
      exfalso
      have h1 := hne c (List.mem_cons_self _ _)
      have h2 := hlen c (List.mem_cons_self _ _)
      have h3 := List.length_pos.2 h1
      omega
  | succ B ih =>
    intro L hne hpw hlen
    have side : ∀ (x : Bool) (M : List (List Bool)), (∀ c ∈ M, firstIs x c = true) →
        (∀ c ∈ M, c ≠ []) →
        List.Pairwise (fun c d => ¬ IsPre c d ∧ ¬ IsPre d c) M →
        (∀ c ∈ M, c.length ≤ B + 1) →
        (M.map (fun c => 2 ^ (B + 1 - c.length))).sum ≤ 2 ^ B := by
      intro x M hfirst hneM hpwM hlenM
      by_cases hx : [x] ∈ M
      · obtain ⟨M1, M2, hM⟩ := List.append_of_mem hx
        subst hM
        rcases List.pairwise_append.1 hpwM with ⟨_, hp2, hcross⟩
        have hM1 : M1 = [] := by
          match M1 with
          | [] => rfl
          | d :: M1t =>
            exfalso
            have hd : d ∈ d :: M1t := List.mem_cons_self _ _
            have hdm : d ∈ (d :: M1t) ++ [x] :: M2 := List.mem_append_left _ hd
            have hrel := hcross d hd ([x]) (List.mem_cons_self _ _)
            obtain ⟨t, hdt⟩ : ∃ t, d = x :: t := by
              have hf := hfirst d hdm
              have hnd := hneM d hdm
              match d, hnd, hf with
              | y :: t, _, hf =>
                have : y = x := by simpa [firstIs] using hf
                exact ⟨t, by rw [this]⟩
            refine hrel.2 ?_
            rw [hdt]
            exact isPre_append [x] t
        have hM2 : M2 = [] := by
          match M2 with
          | [] => rfl
          | d :: M3 =>
            exfalso
            have hd : d ∈ d :: M3 := List.mem_cons_self _ _
            have hdm : d ∈ M1 ++ [x] :: d :: M3 := by
              subst hM1
              simp
            have hrel := (List.pairwise_cons.1 hp2).1 d hd
            obtain ⟨t, hdt⟩ : ∃ t, d = x :: t := by
              have hf := hfirst d hdm
              have hnd := hneM d hdm
              match d, hnd, hf with
              | y :: t, _, hf =>
                have : y = x := by simpa [firstIs] using hf
                exact ⟨t, by rw [this]⟩
            refine hrel.1 ?_
            rw [hdt]
            exact isPre_append [x] t
        subst hM1
        subst hM2
        simp
      · have hshape : ∀ c ∈ M, ∃ t, c = x :: t ∧ t ≠ [] := by
          intro c hc
          match c, hneM c hc, hfirst c hc with
          | y :: t, _, hf =>
            have hy : y = x := by simpa [firstIs] using hf
            subst hy
            refine ⟨t, rfl, ?_⟩
            intro ht
            subst ht
            exact hx hc
        have hsum : (M.map (fun c => 2 ^ (B + 1 - c.length))).sum
            = ((M.map List.tail).map (fun c => 2 ^ (B - c.length))).sum := by
          rw [List.map_map]
          refine congrArg List.sum ?_
          refine List.map_congr_left ?_
          intro c hc
          obtain ⟨t, rfl, _⟩ := hshape c hc
          simp [Nat.succ_sub_succ]
        rw [hsum]
        refine ih (M.map List.tail) ?_ ?_ ?_
        · intro c' hc'
          obtain ⟨c, hc, he⟩ := List.mem_map.1 hc'
          obtain ⟨t, rfl, ht⟩ := hshape c hc
          rw [← he]
          simpa using ht
        · refine List.pairwise_map.2 ?_
          refine hpwM.imp_of_mem ?_
          intro c d hc hd hrel
          obtain ⟨tc, rfl, -⟩ := hshape c hc
          obtain ⟨td, rfl, -⟩ := hshape d hd
          simp only [List.tail_cons]
          constructor
          · intro hpre
            exact hrel.1 ((isPre_cons_iff x x tc td).2 ⟨rfl, hpre⟩)
          · intro hpre
            exact hrel.2 ((isPre_cons_iff x x td tc).2 ⟨rfl, hpre⟩)
        · intro c' hc'
          obtain ⟨c, hc, he⟩ := List.mem_map.1 hc'
          obtain ⟨t, rfl, -⟩ := hshape c hc
          rw [← he]
          have := hlenM _ hc
          simp only [List.length_cons] at this
          simpa using this
    have hsplit := sum_map_filter_add L (fun c => 2 ^ (B + 1 - c.length)) (firstIs false)
    have hfeq : L.filter (fun c => !(firstIs false c)) = L.filter (firstIs true) := by
      refine List.filter_congr ?_
      intro c hc
      have hcne := hne c hc
      match c, hcne with
      | y :: t, _ => cases y <;> simp [firstIs]
    rw [hfeq] at hsplit
    have h0 := side false (L.filter (firstIs false))
      (fun c hc => (List.mem_filter.1 hc).2)
      (fun c hc => hne c (List.mem_filter.1 hc).1)
      (hpw.filter _)
      (fun c hc => hlen c (List.mem_filter.1 hc).1)
    have h1 := side true (L.filter (firstIs true))
      (fun c hc => (List.mem_filter.1 hc).2)
      (fun c hc => hne c (List.mem_filter.1 hc).1)
      (hpw.filter _)
      (fun c hc => hlen c (List.mem_filter.1 hc).1)
    have hp : 2 ^ (B + 1) = 2 ^ B + 2 ^ B := by
      rw [pow_succ]
      omega
    omega

/-! ## Multiset helpers for the exchange argument -/

theorem multiset_sup_mem (s : Multiset ℕ) (h : s ≠ 0) : s.sup ∈ s := by
  induction s using Multiset.induction_on with
  | empty => exact absurd rfl h
  | cons a t ih =>
    by_cases ht : t = 0
    · subst ht
      simp
    · have hmem := ih ht
      rw [Multiset.sup_cons]
      rcases le_total a t.sup with hle | hle
      · rw [sup_eq_right.2 hle]
        exact Multiset.mem_cons_of_mem hmem
      · rw [sup_eq_left.2 hle]
        exact Multiset.mem_cons_self _ _

theorem multiset_map_erase_mem {α β : Type} [DecidableEq α] [DecidableEq β]
    (s : Multiset α) (a : α) (f : α → β) (h : a ∈ s) :
    (s.erase a).map f = (s.map f).erase (f a) := by
  obtain ⟨t, rfl⟩ := Multiset.exists_cons_of_mem h
  rw [Multiset.erase_cons_head, Multiset.map_cons, Multiset.erase_cons_head]

theorem kraftSum_eq_kraftD (B : ℕ) (M : Multiset (ℕ × ℕ)) :
    kraftSum B M = kraftD B (M.map Prod.snd) := by
  rw [kraftSum, kraftD, Multiset.map_map]
  rfl

/-! ## Raising a deficient Kraft sum to equality without raising cost -/

theorem kraft_tighten : ∀ (n : ℕ) (M : Multiset (ℕ × ℕ)) (B : ℕ),
    (M.map Prod.snd).sum = n → M ≠ 0 →
    (∀ p ∈ M, p.2 ≤ B) → kraftSum B M ≤ 2 ^ B →
    ∃ M', M'.map Prod.fst = M.map Prod.fst ∧ (∀ p ∈ M', p.2 ≤ B) ∧
      kraftSum B M' = 2 ^ B ∧ pairCost M' ≤ pairCost M := by
  intro n
  induction n using Nat.strong_induction_on with
  | _ n ih =>
    intro M B hsum hMne hbound hle
    by_cases heq : kraftSum B M = 2 ^ B
    · exact ⟨M, rfl, hbound, heq, le_refl _⟩
    · have hlt : kraftSum B M < 2 ^ B := lt_of_le_of_ne hle heq
      have hmapne : M.map Prod.snd ≠ 0 := by
        simpa [Multiset.map_eq_zero] using hMne
      have hDmem : (M.map Prod.snd).sup ∈ M.map Prod.snd := multiset_sup_mem _ hmapne
      obtain ⟨p0, hp0, hp0D⟩ := Multiset.mem_map.1 hDmem
      set D := (M.map Prod.snd).sup with hD
      have hDB : D ≤ B := by
        rw [← hp0D]
        exact hbound p0 hp0
      have hDle : ∀ p ∈ M, p.2 ≤ D :=
        fun p hp => Multiset.le_sup (Multiset.mem_map_of_mem _ hp)
      have hD1 : 1 ≤ D := by
        by_contra h0
        push_neg at h0
        have hall0 : ∀ p ∈ M, p.2 = 0 := by
          intro p hp
          have := hDle p hp
          omega
        have hrepl : M.map (fun p => 2 ^ (B - p.2))
            = Multiset.replicate M.card (2 ^ B) := by
          refine Multiset.eq_replicate.2 ⟨by simp, ?_⟩
          intro b hb
          obtain ⟨p, hp, he⟩ := Multiset.mem_map.1 hb
          rw [← he, hall0 p hp]
          simp
        have hks : kraftSum B M = M.card * 2 ^ B := by
          rw [kraftSum, hrepl, Multiset.sum_replicate, smul_eq_mul]
        have hcard : 0 < M.card := Multiset.card_pos.2 hMne
        have h2 : 2 ^ B ≤ M.card * 2 ^ B := Nat.le_mul_of_pos_left _ hcard
        omega
      obtain ⟨rest, hrest⟩ := Multiset.exists_cons_of_mem hp0
      have hdvd : (2 : ℕ) ^ (B - D) ∣ kraftSum B M := by
        rw [kraftSum]
        refine Multiset.dvd_sum ?_
        intro x hx
        obtain ⟨p, hp, he⟩ := Multiset.mem_map.1 hx
        rw [← he]
        exact pow_dvd_pow 2 (by have := hDle p hp; omega)
      obtain ⟨q, hq⟩ := hdvd
      have hpowsplit : (2 : ℕ) ^ B = 2 ^ D * 2 ^ (B - D) := by
        rw [← pow_add]
        congr 1
        omega
      have hqlt : q < 2 ^ D := by
        by_contra hge
        push_neg at hge
        have : 2 ^ B ≤ kraftSum B M := by
          rw [hq, hpowsplit, Nat.mul_comm (2 ^ (B - D)) q]
          exact Nat.mul_le_mul_right _ hge
        omega
      have hks2 : kraftSum B ((p0.1, D - 1) ::ₘ rest)
          = kraftSum B M + 2 ^ (B - D) := by
        rw [hrest, kraftSum, kraftSum]
        simp only [Multiset.map_cons, Multiset.sum_cons, hp0D]
        have he1 : B - (D - 1) = (B - D) + 1 := by omega
        rw [he1, pow_succ]
        omega
      have hksbound : kraftSum B ((p0.1, D - 1) ::ₘ rest) ≤ 2 ^ B := by
        rw [hks2, hq, hpowsplit]
        have he2 : 2 ^ (B - D) * q + 2 ^ (B - D) = (q + 1) * 2 ^ (B - D) := by ring
        rw [he2]
        exact Nat.mul_le_mul_right _ (by omega)
      have hbound2 : ∀ p ∈ (p0.1, D - 1) ::ₘ rest, p.2 ≤ B := by
        intro p hp
        rcases Multiset.mem_cons.1 hp with he | hp2
        · rw [he]
          simp
          omega
        · exact hbound p (hrest ▸ Multiset.mem_cons_of_mem hp2)
      have hsum2 : (((p0.1, D - 1) ::ₘ rest).map Prod.snd).sum < n := by
        rw [← hsum, hrest]
        simp [Multiset.map_cons, Multiset.sum_cons, hp0D]
        omega
      obtain ⟨M', hw, hb, hk, hc⟩ := ih _ hsum2 ((p0.1, D - 1) ::ₘ rest) B rfl
        (Multiset.cons_ne_zero) hbound2 hksbound
      refine ⟨M', ?_, hb, hk, ?_⟩
      · rw [hw, hrest]
        simp [Multiset.map_cons]
      · have hcost : pairCost ((p0.1, D - 1) ::ₘ rest) ≤ pairCost M := by
          rw [hrest, pairCost, pairCost]
          simp only [Multiset.map_cons, Multiset.sum_cons]
          have hmul : p0.1 * (D - 1) ≤ p0.1 * p0.2 := by
            rw [hp0D]
            exact Nat.mul_le_mul_left _ (by omega)
          exact Nat.add_le_add_right hmul _
        exact le_trans hc hcost

/-! ## Exchange argument pieces -/

theorem swap_cost_le (x a dx D S : ℕ) (hxa : x ≤ a) (hdxD : dx ≤ D) :
    x * D + (a * dx + S) ≤ x * dx + (a * D + S) := by
  obtain ⟨k, hk⟩ := Nat.exists_eq_add_of_le hdxD
  subst hk
  have h1 : x * k ≤ a * k := Nat.mul_le_mul_right _ hxa
  calc x * (dx + k) + (a * dx + S) = x * dx + a * dx + S + x * k := by ring
    _ ≤ x * dx + a * dx + S + a * k := by omega
    _ = x * dx + (a * (dx + k) + S) := by ring

theorem depth_count_even (s : Multiset ℕ) (B D : ℕ) (hD1 : 1 ≤ D) (hDB : D ≤ B)
    (hDle : ∀ d ∈ s, d ≤ D) (hkraft : kraftD B s = 2 ^ B) :
    2 ∣ s.count D := by
  have hsplit : s.filter (fun d => d = D) + s.filter (fun d => ¬ d = D) = s :=
    Multiset.filter_add_not _ s
  have hadd : kraftD B (s.filter (fun d => d = D))
      + kraftD B (s.filter (fun d => ¬ d = D)) = kraftD B s := by
    rw [← hsplit, kraftD, kraftD, kraftD, Multiset.map_add, Multiset.sum_add, hsplit]
  have hfe : s.filter (fun d => d = D) = Multiset.replicate (s.count D) D :=
    Multiset.filter_eq' s D
  have hpart1 : kraftD B (s.filter (fun d => d = D)) = s.count D * 2 ^ (B - D) := by
    rw [hfe, kraftD, Multiset.map_replicate, Multiset.sum_replicate, smul_eq_mul]
  obtain ⟨m, hm⟩ : (2 : ℕ) ^ (B - D + 1) ∣ kraftD B (s.filter (fun d => ¬ d = D)) := by
    rw [kraftD]
    refine Multiset.dvd_sum ?_
    intro z hz
    obtain ⟨d, hd, he⟩ := Multiset.mem_map.1 hz
    have hd1 := Multiset.mem_filter.1 hd
    have hle := hDle d hd1.1
    have hne : ¬ d = D := by simpa using hd1.2
    rw [← he]
    exact pow_dvd_pow 2 (by omega)
  have hpow : (2 : ℕ) ^ B = 2 ^ D * 2 ^ (B - D) := by
    rw [← pow_add]
    congr 1
    omega
  have hpow2 : (2 : ℕ) ^ (B - D + 1) = 2 * 2 ^ (B - D) := by
    rw [pow_succ]
    ring
  have hmain : s.count D * 2 ^ (B - D) + 2 * m * 2 ^ (B - D) = 2 ^ D * 2 ^ (B - D) := by
    have hthis := hadd
    rw [hpart1, hm, hkraft] at hthis
    rw [← hpow, ← hthis, hpow2]
    ring
  have hcancel : s.count D + 2 * m = 2 ^ D := by
    have hpos : 0 < (2 : ℕ) ^ (B - D) := Nat.pos_pow_of_pos _ (by omega)
    refine Nat.eq_of_mul_eq_mul_right hpos ?_
    rw [Nat.add_mul]
    exact hmain
  obtain ⟨e, he⟩ : ∃ e, (2 : ℕ) ^ D = 2 * e := by
    obtain ⟨k, hk⟩ := Nat.exists_eq_add_of_le hD1
    exact ⟨2 ^ k, by rw [hk, pow_add, pow_one]⟩
  omega

theorem promote_min (M : Multiset (ℕ × ℕ)) (x dx D : ℕ)
    (hmem : (x, dx) ∈ M) (hmin : ∀ p ∈ M, x ≤ p.1)
    (hbound : ∀ p ∈ M, p.2 ≤ D) (hatt : ∃ p ∈ M, p.2 = D) :
    ∃ M', M'.map Prod.fst = M.map Prod.fst ∧ M'.map Prod.snd = M.map Prod.snd ∧
      pairCost M' ≤ pairCost M ∧ (x, D) ∈ M' := by
  by_cases hdx : dx = D
  · exact ⟨M, rfl, rfl, le_refl _, hdx ▸ hmem⟩
  · obtain ⟨p, hp, hpD⟩ := hatt
    have hpne : p ≠ (x, dx) := by
      intro he
      rw [he] at hpD
      exact hdx hpD
    have hp2 : p ∈ M.erase (x, dx) := (Multiset.mem_erase_of_ne hpne).2 hp
    obtain ⟨R, hR⟩ := Multiset.exists_cons_of_mem hp2
    have hMdecomp : M = (x, dx) ::ₘ p ::ₘ R := by
      rw [← Multiset.cons_erase hmem, hR]
    have hxa : x ≤ p.1 := hmin p hp
    have hdxD : dx ≤ D := hbound (x, dx) hmem
    refine ⟨(x, D) ::ₘ (p.1, dx) ::ₘ R, ?_, ?_, ?_, Multiset.mem_cons_self _ _⟩
    · rw [hMdecomp]
      simp [Multiset.map_cons]
    · rw [hMdecomp]
      simp only [Multiset.map_cons]
      rw [hpD]
      exact Multiset.cons_swap _ _ _
    · rw [hMdecomp, pairCost, pairCost]
      simp only [Multiset.map_cons, Multiset.sum_cons]
      have := swap_cost_le x p.1 dx D ((R.map (fun q => q.1 * q.2)).sum) hxa hdxD
      calc (x, D).1 * (x, D).2 + ((p.1, dx).1 * (p.1, dx).2
              + (R.map (fun q => q.1 * q.2)).sum)
          = x * D + (p.1 * dx + (R.map (fun q => q.1 * q.2)).sum) := rfl
        _ ≤ x * dx + (p.1 * D + (R.map (fun q => q.1 * q.2)).sum) := this
        _ = (x, dx).1 * (x, dx).2 + (p.1 * p.2 + (R.map (fun q => q.1 * q.2)).sum) := by
            rw [hpD]

theorem pairCost_cons (p : ℕ × ℕ) (s : Multiset (ℕ × ℕ)) :
    pairCost (p ::ₘ s) = p.1 * p.2 + pairCost s := by
  rw [pairCost, pairCost, Multiset.map_cons, Multiset.sum_cons]

/-- Any (weight, depth) multiset whose scaled Kraft sum is exactly 2 ^ B has
cost at least the Huffman cost of its weights. -/
theorem kraft_cost_lb : ∀ (n : ℕ) (M : Multiset (ℕ × ℕ)) (B : ℕ),
    M.card = n → M ≠ 0 →
    (∀ p ∈ M, p.2 ≤ B) → kraftSum B M = 2 ^ B →
    hcM (M.map Prod.fst) ≤ pairCost M := by
  intro n
  induction n using Nat.strong_induction_on with
  | _ n ih =>
    intro M B hcard hMne hbound hkraft
    match n, hcard, ih with
    | 0, hcard, _ =>
      exact absurd (Multiset.card_eq_zero.1 hcard) hMne
    | 1, hcard, _ =>
      obtain ⟨p, hp⟩ := Multiset.card_eq_one.1 hcard
      subst hp
      have hks : 2 ^ (B - p.2) = 2 ^ B := by
        simpa [kraftSum] using hkraft
      have hpB : p.2 ≤ B := hbound p (Multiset.mem_singleton_self p)
      have hp0 : p.2 = 0 := by
        have hinj := Nat.pow_right_injective (le_refl 2) hks
        omega
      have hcost : pairCost {p} = 0 := by
        simp [pairCost, hp0]
      rw [hcost]
      have hmapf : (Multiset.map Prod.fst {p}) = (↑[p.1] : Multiset ℕ) := by
        simp
      rw [hmapf, hcM_coe]
      simp [hc, hcGo]
    | (n2 + 2), hcard, ih =>
      have hsl : ((M.map Prod.fst).sort (· ≤ ·)).length = M.card := by
        simp [Multiset.coe_card]
      rcases hLs : (M.map Prod.fst).sort (· ≤ ·) with _ | ⟨x, _ | ⟨y, t⟩⟩
      · rw [hLs] at hsl
        simp [hcard] at hsl
      · rw [hLs] at hsl
        simp [hcard] at hsl
      · rw [hLs] at hsl
        have htlen : t.length = n2 := by
          rw [hcard] at hsl
          simpa using hsl
        have hsorted := Multiset.sort_sorted (· ≤ ·) (M.map Prod.fst)
        rw [hLs] at hsorted
        have hxy : x ≤ y := (List.sorted_cons.1 hsorted).1 y (List.mem_cons_self _ _)
        have hxt : ∀ z ∈ t, x ≤ z := fun z hz =>
          (List.sorted_cons.1 hsorted).1 z (List.mem_cons_of_mem _ hz)
        have hyt : ∀ z ∈ t, y ≤ z := fun z hz =>
          (List.sorted_cons.1 (List.sorted_cons.1 hsorted).2).1 z hz
        have hcoe : (↑(x :: y :: t) : Multiset ℕ) = M.map Prod.fst := by
          rw [← hLs]
          exact Multiset.sort_eq _ _
        have hxmem : x ∈ M.map Prod.fst := by
          rw [← hcoe]
          exact Multiset.mem_coe.2 (List.mem_cons_self _ _)
        obtain ⟨px, hpxM, hpx1⟩ := Multiset.mem_map.1 hxmem
        have hxpair : (x, px.2) ∈ M := by
          rw [← hpx1]
          simpa using hpxM
        have hmin : ∀ p ∈ M, x ≤ p.1 := by
          intro p hp
          have hmm : p.1 ∈ (↑(x :: y :: t) : Multiset ℕ) := by
            rw [hcoe]
            exact Multiset.mem_map_of_mem _ hp
          have hmem2 : p.1 ∈ x :: y :: t := Multiset.mem_coe.1 hmm
          rcases List.mem_cons.1 hmem2 with he | h2
          · rw [he]
          · rcases List.mem_cons.1 h2 with he | h3
            · rw [he]
              exact hxy
            · exact hxt _ h3
        have hmapne : M.map Prod.snd ≠ 0 := by
          simpa [Multiset.map_eq_zero] using hMne
        have hDmem : (M.map Prod.snd).sup ∈ M.map Prod.snd := multiset_sup_mem _ hmapne
        have hDle : ∀ p ∈ M, p.2 ≤ (M.map Prod.snd).sup :=
          fun p hp => Multiset.le_sup (Multiset.mem_map_of_mem _ hp)
        have hDB : (M.map Prod.snd).sup ≤ B := by
          refine Multiset.sup_le.2 ?_
          intro b hb
          obtain ⟨p, hp, he⟩ := Multiset.mem_map.1 hb
          rw [← he]
          exact hbound p hp
        have hatt : ∃ p ∈ M, p.2 = (M.map Prod.snd).sup := by
          obtain ⟨p, hp, he⟩ := Multiset.mem_map.1 hDmem
          exact ⟨p, hp, he⟩
        have hD1 : 1 ≤ (M.map Prod.snd).sup := by
          by_contra h0
          push_neg at h0
          have hall0 : ∀ p ∈ M, p.2 = 0 := by
            intro p hp
            have := hDle p hp
            omega
          have hrepl : M.map (fun p => 2 ^ (B - p.2))
              = Multiset.replicate M.card (2 ^ B) := by
            refine Multiset.eq_replicate.2 ⟨by simp, ?_⟩
            intro b hb
            obtain ⟨p, hp, he⟩ := Multiset.mem_map.1 hb
            rw [← he, hall0 p hp]
            simp
          have hks : kraftSum B M = M.card * 2 ^ B := by
            rw [kraftSum, hrepl, Multiset.sum_replicate, smul_eq_mul]
          have hpos : 0 < (2 : ℕ) ^ B := Nat.pos_pow_of_pos _ (by omega)
          have hone : M.card = 1 := by
            refine Nat.eq_of_mul_eq_mul_right hpos ?_
            rw [← hks, hkraft, one_mul]
          rw [hcard] at hone
          omega
        have hkD : kraftD B (M.map Prod.snd) = 2 ^ B := by
          rw [← kraftSum_eq_kraftD]
          exact hkraft
        have heven : 2 ∣ (M.map Prod.snd).count ((M.map Prod.snd).sup) :=
          depth_count_even (M.map Prod.snd) B _ hD1 hDB
            (fun d hd => Multiset.le_sup hd) hkD
        have hcnt1 : 0 < (M.map Prod.snd).count ((M.map Prod.snd).sup) :=
          Multiset.count_pos.2 hDmem
        obtain ⟨M1, hfst1, hsnd1, hcost1, hmemx⟩ :=
          promote_min M x px.2 ((M.map Prod.snd).sup) hxpair hmin hDle hatt
        have hNfst : (M1.erase (x, (M.map Prod.snd).sup)).map Prod.fst
            = (↑(y :: t) : Multiset ℕ) := by
          rw [multiset_map_erase_mem _ _ _ hmemx, hfst1, ← hcoe,
            ← Multiset.cons_coe, Multiset.erase_cons_head]
        have hNsnd : (M1.erase (x, (M.map Prod.snd).sup)).map Prod.snd
            = (M.map Prod.snd).erase ((M.map Prod.snd).sup) := by
          rw [multiset_map_erase_mem _ _ _ hmemx, hsnd1]
        have hymem : y ∈ (M1.erase (x, (M.map Prod.snd).sup)).map Prod.fst := by
          rw [hNfst]
          exact Multiset.mem_coe.2 (List.mem_cons_self _ _)
        obtain ⟨py, hpyN, hpy1⟩ := Multiset.mem_map.1 hymem
        have hypair : (y, py.2) ∈ M1.erase (x, (M.map Prod.snd).sup) := by
          rw [← hpy1]
          simpa using hpyN
        have hminN : ∀ p ∈ M1.erase (x, (M.map Prod.snd).sup), y ≤ p.1 := by
          intro p hp
          have hmm : p.1 ∈ (↑(y :: t) : Multiset ℕ) := by
            rw [← hNfst]
            exact Multiset.mem_map_of_mem _ hp
          rcases List.mem_cons.1 (Multiset.mem_coe.1 hmm) with he | h3
          · rw [he]
          · exact hyt _ h3
        have hboundN : ∀ p ∈ M1.erase (x, (M.map Prod.snd).sup),
            p.2 ≤ (M.map Prod.snd).sup := by
          intro p hp
          have hmm : p.2 ∈ (M1.erase (x, (M.map Prod.snd).sup)).map Prod.snd :=
            Multiset.mem_map_of_mem _ hp
          rw [hNsnd] at hmm
          exact Multiset.le_sup (Multiset.mem_of_mem_erase hmm)
        have hattN : ∃ p ∈ M1.erase (x, (M.map Prod.snd).sup),
            p.2 = (M.map Prod.snd).sup := by
          have hmem2 : (M.map Prod.snd).sup
              ∈ (M1.erase (x, (M.map Prod.snd).sup)).map Prod.snd := by
            rw [hNsnd, ← Multiset.count_pos, Multiset.count_erase_self]
            omega
          obtain ⟨p, hp, he⟩ := Multiset.mem_map.1 hmem2
          exact ⟨p, hp, he⟩
        obtain ⟨N1, hfst2, hsnd2, hcost2, hmemy⟩ :=
          promote_min _ y py.2 ((M.map Prod.snd).sup) hypair hminN hboundN hattN
        have hRfst : (N1.erase (y, (M.map Prod.snd).sup)).map Prod.fst
            = (↑t : Multiset ℕ) := by
          rw [multiset_map_erase_mem _ _ _ hmemy, hfst2, hNfst,
            ← Multiset.cons_coe, Multiset.erase_cons_head]
        have hRsnd : (N1.erase (y, (M.map Prod.snd).sup)).map Prod.snd
            = ((M.map Prod.snd).erase ((M.map Prod.snd).sup)).erase
                ((M.map Prod.snd).sup) := by
          rw [multiset_map_erase_mem _ _ _ hmemy, hsnd2, hNsnd]
        have hsdecomp : (M.map Prod.snd).sup ::ₘ (M.map Prod.snd).sup
              ::ₘ ((M.map Prod.snd).erase ((M.map Prod.snd).sup)).erase
                  ((M.map Prod.snd).sup)
            = M.map Prod.snd := by
          have h2 : (M.map Prod.snd).sup
              ∈ (M.map Prod.snd).erase ((M.map Prod.snd).sup) := by
            rw [← Multiset.count_pos, Multiset.count_erase_self]
            omega
          rw [Multiset.cons_erase h2, Multiset.cons_erase hDmem]
        have hkM2 : kraftSum B ((x + y, (M.map Prod.snd).sup - 1)
            ::ₘ N1.erase (y, (M.map Prod.snd).sup)) = 2 ^ B := by
          rw [kraftSum_eq_kraftD, Multiset.map_cons, hRsnd]
          have hkd := hkD
          rw [← hsdecomp, kraftD, Multiset.map_cons, Multiset.map_cons,
            Multiset.sum_cons, Multiset.sum_cons] at hkd
          rw [kraftD, Multiset.map_cons, Multiset.sum_cons]
          have hBD : B - ((M.map Prod.snd).sup - 1)
              = (B - (M.map Prod.snd).sup) + 1 := by omega
          rw [show ((x + y, (M.map Prod.snd).sup - 1)).2
              = (M.map Prod.snd).sup - 1 from rfl, hBD, pow_succ]
          omega
        have hboundM2 : ∀ p ∈ (x + y, (M.map Prod.snd).sup - 1)
            ::ₘ N1.erase (y, (M.map Prod.snd).sup), p.2 ≤ B := by
          intro p hp
          rcases Multiset.mem_cons.1 hp with he | hp2
          · rw [he]
            show (M.map Prod.snd).sup - 1 ≤ B
            omega
          · have hmm : p.2 ∈ (N1.erase (y, (M.map Prod.snd).sup)).map Prod.snd :=
              Multiset.mem_map_of_mem _ hp2
            rw [hRsnd] at hmm
            have h2 := Multiset.mem_of_mem_erase (Multiset.mem_of_mem_erase hmm)
            obtain ⟨q, hq, he⟩ := Multiset.mem_map.1 h2
            rw [← he]
            exact hbound q hq
        have hcardR : (N1.erase (y, (M.map Prod.snd).sup)).card = n2 := by
          have h1 := congrArg Multiset.card hRfst
          rw [Multiset.card_map, Multiset.coe_card] at h1
          omega
        have hIH := ih (n2 + 1) (by omega)
          ((x + y, (M.map Prod.snd).sup - 1) ::ₘ N1.erase (y, (M.map Prod.snd).sup)) B
          (by rw [Multiset.card_cons, hcardR]) (Multiset.cons_ne_zero) hboundM2 hkM2
        have hM2fst : ((x + y, (M.map Prod.snd).sup - 1)
            ::ₘ N1.erase (y, (M.map Prod.snd).sup)).map Prod.fst
            = (↑((x + y) :: t) : Multiset ℕ) := by
          rw [Multiset.map_cons, hRfst]
          exact Multiset.cons_coe _ _
        rw [hM2fst, hcM_coe, pairCost_cons] at hIH
        have hgoal1 : hcM (M.map Prod.fst) = hc (x :: y :: t) := by
          rw [hcM, hLs]
        rw [hgoal1, hc_cons2 x y t hxy hyt]
        have hpcM1 : pairCost M1 = x * (M.map Prod.snd).sup
            + pairCost (M1.erase (x, (M.map Prod.snd).sup)) := by
          have h1 := pairCost_cons (x, (M.map Prod.snd).sup)
            (M1.erase (x, (M.map Prod.snd).sup))
          rw [Multiset.cons_erase hmemx] at h1
          exact h1
        have hpcN1 : pairCost N1 = y * (M.map Prod.snd).sup
            + pairCost (N1.erase (y, (M.map Prod.snd).sup)) := by
          have h1 := pairCost_cons (y, (M.map Prod.snd).sup)
            (N1.erase (y, (M.map Prod.snd).sup))
          rw [Multiset.cons_erase hmemy] at h1
          exact h1
        have hfin : x + y + ((x + y) * ((M.map Prod.snd).sup - 1)
              + pairCost (N1.erase (y, (M.map Prod.snd).sup)))
            = x * (M.map Prod.snd).sup + (y * (M.map Prod.snd).sup
              + pairCost (N1.erase (y, (M.map Prod.snd).sup))) := by
          obtain ⟨k, hk⟩ := Nat.exists_eq_add_of_le hD1
          rw [hk, Nat.add_sub_cancel_left]
          ring
        have hIH2 : hc ((x + y) :: t) ≤ (x + y) * ((M.map Prod.snd).sup - 1)
            + pairCost (N1.erase (y, (M.map Prod.snd).sup)) := hIH
        calc x + y + hc ((x + y) :: t)
            ≤ x + y + ((x + y) * ((M.map Prod.snd).sup - 1)
                + pairCost (N1.erase (y, (M.map Prod.snd).sup))) := by
              omega
          _ = x * (M.map Prod.snd).sup + (y * (M.map Prod.snd).sup
              + pairCost (N1.erase (y, (M.map Prod.snd).sup))) := hfin
          _ = x * (M.map Prod.snd).sup + pairCost N1 := by rw [hpcN1]
          _ ≤ x * (M.map Prod.snd).sup
              + pairCost (M1.erase (x, (M.map Prod.snd).sup)) := by
              have := hcost2
              omega
          _ = pairCost M1 := hpcM1.symm
          _ ≤ pairCost M := hcost1

/-! ## Assembling the optimality theorem -/

theorem le_foldr_max (l : List ℕ) (x : ℕ) (hx : x ∈ l) : x ≤ l.foldr max 0 := by
  induction l with
  | nil => simp at hx
  | cons a rest ih =>
    rcases List.mem_cons.1 hx with he | h2
    · rw [he]
      exact le_max_left _ _
    · exact le_trans (ih h2) (le_max_right _ _)

theorem codeCost_eq_pairCost (data : List ℕ) (cf : ℕ → List Bool) :
    codeCost data cf
      = pairCost (↑((freqItems data).map (fun p => (p.2, (cf p.1).length)))
          : Multiset (ℕ × ℕ)) := by
  rw [codeCost, pairCost, Multiset.map_coe, Multiset.sum_coe, List.map_map]
  rfl

theorem freqItems_ne_nil (data : List ℕ) (hne : data ≠ []) : freqItems data ≠ [] := by
  intro h
  have := List.map_eq_nil_iff.1 h
  exact hne ((seenKeys_nil_iff data).1 this)

/-- Claim C3: the code assignment the algorithm builds minimizes the sum
over symbols of frequency times code length among all prefix-free binary
code assignments for the input's frequency distribution; in particular for
"aaabbc" (bytes 97 97 97 98 98 99) the optimal weighted bit cost is 9. -/
theorem huffman_optimal :
    (∀ (data : List ℕ) (cf : ℕ → List Bool) (root : HuffmanNode), data ≠ [] →
      (∀ b ∈ seenKeys data, cf b ≠ []) →
      (∀ b1 ∈ seenKeys data, ∀ b2 ∈ seenKeys data, b1 ≠ b2 →
        ¬ IsPre (cf b1) (cf b2)) →
      build_huffman_tree_from_bytes data = some root →
      tableCodeCost data (build_codes_from_tree root) ≤ codeCost data cf) ∧
    (∀ root, build_huffman_tree_from_bytes [97, 97, 97, 98, 98, 99] = some root →
      tableCodeCost [97, 97, 97, 98, 98, 99] (build_codes_from_tree root) = 9) := by
  constructor
  · intro data cf root hne hcf hpf hroot
    have hskne : seenKeys data ≠ [] := fun h => hne ((seenKeys_nil_iff data).1 h)
    rcases hsk : seenKeys data with _ | ⟨s, _ | ⟨s2, sk2⟩⟩
    · exact absurd hsk hskne
    · have hrooteq := build_tree_alpha1 data s hsk root hroot
      subst hrooteq
      rw [tableCodeCost_alpha1 data s hsk]
      have hcc : codeCost data cf = data.count s * (cf s).length := by
        simp [codeCost, freqItems, hsk]
      rw [hcc]
      have hlen1 : 1 ≤ (cf s).length := by
        refine List.length_pos.2 ?_
        refine hcf s ?_
        rw [hsk]
        exact List.mem_cons_self _ _
      calc data.count s = data.count s * 1 := by ring
        _ ≤ data.count s * (cf s).length := Nat.mul_le_mul_left _ hlen1
    · have hsize : 2 ≤ (seenKeys data).length := by
        rw [hsk]
        simp
      obtain ⟨f, l, r, hr⟩ := root_internal_of_two data root hroot hsize
      subst hr
      have hcons := build_tree_consistent data _ hroot
      have hmy : tableCodeCost data (build_codes_from_tree (.internal f l r))
          = hc ((freqItems data).map Prod.snd) := by
        rw [tableCodeCost_eq data _ hroot, walkPairs_cost_root f l r hcons,
          build_tree_cost data _ hroot]
      have hLpf : List.Pairwise (fun c d => ¬ IsPre c d ∧ ¬ IsPre d c)
          ((seenKeys data).map cf) := by
        refine List.pairwise_map.2 ?_
        refine List.Pairwise.imp_of_mem ?_ (nodup_seenKeys data)
        intro b1 b2 h1 h2 hne12
        exact ⟨hpf b1 h1 b2 h2 hne12, hpf b2 h2 b1 h1 (Ne.symm hne12)⟩
      have hkraft : kraftSum (((seenKeys data).map (fun b => (cf b).length)).foldr max 0)
          (↑((freqItems data).map (fun p => (p.2, (cf p.1).length)))
            : Multiset (ℕ × ℕ)) ≤ 2 ^
            (((seenKeys data).map (fun b => (cf b).length)).foldr max 0) := by
        have he : kraftSum (((seenKeys data).map (fun b => (cf b).length)).foldr max 0)
            (↑((freqItems data).map (fun p => (p.2, (cf p.1).length)))
              : Multiset (ℕ × ℕ))
            = (((seenKeys data).map cf).map (fun c =>
                2 ^ ((((seenKeys data).map (fun b => (cf b).length)).foldr max 0)
                  - c.length))).sum := by
          rw [kraftSum, Multiset.map_coe, Multiset.sum_coe, List.map_map,
            freqItems, List.map_map, List.map_map]
          exact congrArg List.sum (List.map_congr_left (fun _ _ => rfl))
        rw [he]
        refine kraft_le _ ((seenKeys data).map cf) ?_ hLpf ?_
        · intro c hc2
          obtain ⟨b, hb, hbe⟩ := List.mem_map.1 hc2
          rw [← hbe]
          exact hcf b hb
        · intro c hc2
          obtain ⟨b, hb, hbe⟩ := List.mem_map.1 hc2
          rw [← hbe]
          exact le_foldr_max _ _ (List.mem_map.2 ⟨b, hb, rfl⟩)
      have hMcfne : (↑((freqItems data).map (fun p => (p.2, (cf p.1).length)))
          : Multiset (ℕ × ℕ)) ≠ 0 := by
        intro h0
        rw [Multiset.coe_eq_zero] at h0
        exact freqItems_ne_nil data hne (List.map_eq_nil_iff.1 h0)
      have hboundM : ∀ p ∈ (↑((freqItems data).map (fun p => (p.2, (cf p.1).length)))
          : Multiset (ℕ × ℕ)),
          p.2 ≤ ((seenKeys data).map (fun b => (cf b).length)).foldr max 0 := by
        intro p hp
        obtain ⟨q, hq, he2⟩ := List.mem_map.1 (Multiset.mem_coe.1 hp)
        rw [← he2]
        have hq1 : q.1 ∈ seenKeys data := by
          rw [← freqItems_fst]
          exact List.mem_map.2 ⟨q, hq, rfl⟩
        exact le_foldr_max _ _ (List.mem_map.2 ⟨q.1, hq1, rfl⟩)
      obtain ⟨M', hw, hb2, hk2, hcost2⟩ := kraft_tighten _ _
        (((seenKeys data).map (fun b => (cf b).length)).foldr max 0)
        rfl hMcfne hboundM hkraft
      have hM'ne : M' ≠ 0 := by
        intro h0
        rw [h0] at hw
        have hz : Multiset.map Prod.fst
            (↑((freqItems data).map (fun p => (p.2, (cf p.1).length)))
              : Multiset (ℕ × ℕ)) = 0 := by
          rw [← hw]
          simp
        exact hMcfne (Multiset.map_eq_zero.1 hz)
      have hlb := kraft_cost_lb M'.card M' _ rfl hM'ne hb2 hk2
      have hlist : (freqItems data).map (Prod.fst ∘ fun p => (p.2, (cf p.1).length))
          = (freqItems data).map Prod.snd :=
        List.map_congr_left (fun _ _ => rfl)
      have hwfst : M'.map Prod.fst
          = (↑((freqItems data).map Prod.snd) : Multiset ℕ) := by
        rw [hw, Multiset.map_coe, List.map_map, hlist]
      rw [hwfst, hcM_coe] at hlb
      rw [hmy, codeCost_eq_pairCost data cf]
      exact le_trans hlb hcost2
  · intro root h
    have hb : build_huffman_tree_from_bytes [97, 97, 97, 98, 98, 99]
        = some (HuffmanNode.internal 6 (.leaf 97 3)
            (.internal 3 (.leaf 99 1) (.leaf 98 2))) := by decide
    rw [hb] at h
    injection h with h2
    rw [← h2]
    decide

theorem huffman_optimal_witness :
    ([0, 1] : List ℕ) ≠ [] ∧
      (∀ b ∈ seenKeys [0, 1],
        (fun b => if b = 0 then [false] else [true]) b ≠ []) ∧
      tableCodeCost [0, 1]
          (build_codes_from_tree (HuffmanNode.internal 2 (.leaf 0 1) (.leaf 1 1)))
        ≤ codeCost [0, 1] (fun b => if b = 0 then [false] else [true]) :=
  ⟨by decide, by decide,
    huffman_optimal.1 [0, 1] (fun b => if b = 0 then [false] else [true])
      (HuffmanNode.internal 2 (.leaf 0 1) (.leaf 1 1))
      (by decide) (by decide) (by decide) (by decide)⟩
